import Mathlib

/-!
Shallow embedding of the n-queens local-search solvers of
`emilio/local-search-algorithms` (`src/src/main.rs`) and proofs about them.

Conventions used throughout:
* `usize` scores and indices are `ℕ`; `f32` temperatures and probabilities are `ℚ`
  (with `Real.exp` for the one genuine transcendental comparison).
* The OS random generator is an arbitrary stream `g : ℕ → ℕ` of `next_u32` draws
  (consumed at an explicit cursor `k`) together with an arbitrary stream
  `u : ℕ → UnitIco` of `next_f32` draws in `[0,1)` (cursor `m`).
* Loops whose termination depends on the random stream take explicit fuel and
  return `none` when the fuel runs out (or when the Rust code would panic);
  that a run "terminates" is expressed as the loop returning `some`.
* The progress callback is modelled by accumulating the `(queen_rows, score)`
  pairs it would receive into a trace list.
-/

/-- `PositionError` from main.rs. -/
inductive PositionError
  | matched
  | column
  | row
  | diagonal
deriving DecidableEq, Repr

/-- `GenericChallengeState::can_position`: `Err` iff a queen at `p1` could be hit
by a queen at `p2`. -/
def can_position (p1 p2 : ℕ × ℕ) : Except PositionError Unit :=
  let (x1, y1) := p1
  let (x2, y2) := p2
  if x1 = x2 ∧ y1 = y2 then .error .matched
  else if x1 = x2 then .error .column
  else if y1 = y2 then .error .row
  else if ((x1 : ℤ) - (x2 : ℤ)).natAbs = ((y1 : ℤ) - (y2 : ℤ)).natAbs then .error .diagonal
  else .ok ()

/-- Whether an `Except` is an error (`Result::is_err`). -/
def isErrE {ε α : Type} : Except ε α → Bool
  | .error _ => true
  | .ok _ => false

/-- `GenericChallengeState::can_hit`. -/
def can_hit (p1 p2 : ℕ × ℕ) : Bool :=
  isErrE (can_position p1 p2)

/-- `GenericChallengeState::score`: the number of pairs of queens that can hit
each other (nested loops `i`, `j in i+1..len`). -/
def score (rows : List ℕ) : ℕ :=
  ∑ i in Finset.range rows.length, ∑ j in Finset.Ico (i + 1) rows.length,
    if can_hit (i, rows.getD i 0) (j, rows.getD j 0) then 1 else 0

/-- `GenericChallengeState::queen_can_be_positioned_at`. -/
def queen_can_be_positioned_at (rows : List ℕ) (pos : ℕ × ℕ) : Bool :=
  rows.enum.all fun xy => !(isErrE (can_position pos xy))

/-- `Vec::swap` on the row list (indices are always in bounds at call sites). -/
def swapL (l : List ℕ) (i j : ℕ) : List ℕ :=
  let vi := l.getD i 0
  let vj := l.getD j 0
  (l.set i vj).set j vi

/-- `GenericChallengeState::random_queen_index`: `rng.next_u32() as usize % len`. -/
def random_queen_index (g : ℕ → ℕ) (len k : ℕ) : ℕ :=
  g k % len

/-- The resampling `while queen_1 == queen_2` loop inside
`get_two_random_queens`, with fuel; returns the second queen and the next
stream cursor. -/
def resample (g : ℕ → ℕ) (len q1 : ℕ) : ℕ → ℕ → Option (ℕ × ℕ)
  | 0, _ => none
  | fuelR + 1, k =>
    let q2 := random_queen_index g len k
    if q2 = q1 then resample g len q1 fuelR (k + 1) else some (q2, k + 1)

/-- `GenericChallengeState::get_two_random_queens`: two random, distinct queen
indices; returns `(queen_1, queen_2, next cursor)`. -/
def get_two_random_queens (g : ℕ → ℕ) (len k fuelR : ℕ) : Option (ℕ × ℕ × ℕ) :=
  let q1 := random_queen_index g len k
  (resample g len q1 fuelR (k + 1)).map fun q => (q1, q.1, q.2)

/-- One step of the `GenericChallengeState::new` distribution loop: repeatedly
remove a random element of the pending pool.  The Rust loop writes the `t`-th
removed element at index `len - t`, so the final `queen_rows` is the reverse of
this removal sequence. -/
def drawSeq (g : ℕ → ℕ) : ℕ → List ℕ → ℕ → List ℕ
  | _, [], _ => []
  | 0, _ :: _, _ => []
  | b + 1, p :: ps, k =>
    let pending := p :: ps
    let chosen := g k % pending.length
    pending.getD chosen 0 :: drawSeq g b (pending.eraseIdx chosen) (k + 1)

/-- `GenericChallengeState::new`: random permutation of `0..size` (the loop
runs exactly `size` times, so the structural bound `n` is exact). -/
def randPerm (n : ℕ) (g : ℕ → ℕ) (k : ℕ) : List ℕ :=
  (drawSeq g n (List.range n) k).reverse

/-- The spec's conflict relation: placements `(i, ri)` and `(j, rj)` attack iff
they share a row or a diagonal. -/
def attacksSpec (i ri j rj : ℕ) : Prop :=
  ri = rj ∨ ((i : ℤ) - (j : ℤ)).natAbs = ((ri : ℤ) - (rj : ℤ)).natAbs

instance (i ri j rj : ℕ) : Decidable (attacksSpec i ri j rj) :=
  inferInstanceAs (Decidable (_ ∨ _))

/-- For distinct columns, `can_hit` is exactly the spec's attack relation. -/
theorem can_hit_iff_attacksSpec (i j ri rj : ℕ) (hij : i ≠ j) :
    can_hit (i, ri) (j, rj) = true ↔ attacksSpec i ri j rj := by
  unfold can_hit can_position attacksSpec isErrE
  by_cases hr : ri = rj
  · simp [hij, hr]
  · by_cases hd : ((i : ℤ) - (j : ℤ)).natAbs = ((ri : ℤ) - (rj : ℤ)).natAbs <;>
      simp [hij, hr, hd]

/-- The spec's attacking-pairs set for an assignment. -/
def attackPairs (rows : List ℕ) : Finset (ℕ × ℕ) :=
  (Finset.range rows.length ×ˢ Finset.range rows.length).filter
    fun p => p.1 < p.2 ∧ attacksSpec p.1 (rows.getD p.1 0) p.2 (rows.getD p.2 0)

/-- C3: for every assignment, `score` returns exactly the number of unordered
pairs `(i, j)`, `i < j`, whose placements attack each other in the spec's sense
(shared row or `|i-j| = |rows[i]-rows[j]|`). -/
theorem score_eq_card_attackPairs (rows : List ℕ) :
    score rows = (attackPairs rows).card := by
  classical
  unfold score attackPairs
  rw [Finset.card_filter, Finset.sum_product]
  refine Finset.sum_congr rfl fun i hi => ?_
  have hsplit : Finset.Ico (i + 1) rows.length
      = (Finset.range rows.length).filter (fun j => i < j) := by
    ext j
    simp only [Finset.mem_Ico, Finset.mem_filter, Finset.mem_range]
    omega
  rw [hsplit, Finset.sum_filter]
  refine Finset.sum_congr rfl fun j hj => ?_
  by_cases hlt : i < j
  · rw [if_pos hlt]
    have hij : i ≠ j := Nat.ne_of_lt hlt
    by_cases ha : attacksSpec i (rows.getD i 0) j (rows.getD j 0)
    · rw [if_pos ((can_hit_iff_attacksSpec i j _ _ hij).2 ha), if_pos ⟨hlt, ha⟩]
    · rw [if_neg fun hc => ha ((can_hit_iff_attacksSpec i j _ _ hij).1 hc),
        if_neg fun hc => ha hc.2]
  · rw [if_neg hlt, if_neg fun hc => hlt hc.1]

theorem length_swapL (l : List ℕ) (i j : ℕ) : (swapL l i j).length = l.length := by
  simp [swapL]

theorem count_swapL (l : List ℕ) (i j : ℕ) (hi : i < l.length) (hj : j < l.length) (a : ℕ) :
    (swapL l i j).count a = l.count a := by
  unfold swapL
  simp only [List.getD_eq_getElem _ _ hi, List.getD_eq_getElem _ _ hj]
  rw [List.count_set _ _ _ _ (by simpa using hj), List.count_set _ _ _ _ (by simpa using hi)]
  rw [List.getElem_set]
  have hA : (if (l[i] == a) = true then 1 else 0) ≤ l.count a := by
    split
    · rename_i hbeq
      have : a ∈ l := beq_iff_eq.1 hbeq ▸ List.getElem_mem hi
      exact List.count_pos_iff.2 this
    · exact Nat.zero_le _
  have hite : (if i = j then l[j] else l[j]) = l[j] := by split <;> rfl
  rw [hite]
  omega

theorem swapL_perm (l : List ℕ) (i j : ℕ) (hi : i < l.length) (hj : j < l.length) :
    (swapL l i j).Perm l :=
  List.perm_iff_count.2 (count_swapL l i j hi hj)

theorem getD_swapL (l : List ℕ) (i j n : ℕ) (hi : i < l.length) (hj : j < l.length)
    (hn : n < l.length) :
    (swapL l i j).getD n 0 =
      if j = n then l.getD i 0 else if i = n then l.getD j 0 else l.getD n 0 := by
  unfold swapL
  rw [List.getD_eq_getElem _ _ (by simpa using hn), List.getElem_set, List.getElem_set]
  split_ifs
  · rfl
  · rfl
  · rw [List.getD_eq_getElem _ _ hn]

theorem swapL_swapL (l : List ℕ) (i j : ℕ) (hi : i < l.length) (hj : j < l.length) :
    swapL (swapL l i j) i j = l := by
  have hl : (swapL (swapL l i j) i j).length = l.length := by simp [length_swapL]
  apply List.ext_getElem hl
  intro n h1 h2
  rw [← List.getD_eq_getElem _ 0 h1, ← List.getD_eq_getElem _ 0 h2,
    getD_swapL _ _ _ _ (by rwa [length_swapL]) (by rwa [length_swapL])
      (by rwa [length_swapL]),
    getD_swapL l i j i hi hj hi, getD_swapL l i j j hi hj hj,
    getD_swapL l i j n hi hj h2]
  split_ifs <;> simp_all

/-- A callback trace: the `(queen_rows, score)` snapshots the callback receives. -/
abbrev Trace := List (List ℕ × ℕ)

/-- Removing the chosen element and putting it in front is a permutation. -/
theorem getD_cons_eraseIdx_perm : ∀ (l : List ℕ) (c : ℕ), c < l.length →
    ((l.getD c 0) :: l.eraseIdx c).Perm l
  | _ :: _, 0, _ => by simp [List.eraseIdx]
  | a :: l, c + 1, h => by
    have hc : c < l.length := by simpa using Nat.lt_of_succ_lt_succ h
    have ih := getD_cons_eraseIdx_perm l c hc
    exact (List.Perm.swap a (l.getD c 0) (l.eraseIdx c)).trans (ih.cons a)

/-- `drawSeq` permutes the pending pool, for every random stream. -/
theorem drawSeq_perm (g : ℕ → ℕ) : ∀ (n : ℕ) (pending : List ℕ), pending.length ≤ n →
    ∀ k, (drawSeq g n pending k).Perm pending
  | _, [], _, _ => by rw [drawSeq]
  | 0, p :: ps, hle, _ => by simp at hle
  | n + 1, p :: ps, hle, k => by
    rw [drawSeq]
    have hch : g k % (p :: ps).length < (p :: ps).length := Nat.mod_lt _ (by simp)
    have hlen : ((p :: ps).eraseIdx (g k % (p :: ps).length)).length ≤ n := by
      rw [List.length_eraseIdx, if_pos hch]
      simp only [List.length_cons] at hle ⊢
      omega
    have ih := drawSeq_perm g n ((p :: ps).eraseIdx (g k % (p :: ps).length)) hlen (k + 1)
    exact (ih.cons _).trans (getD_cons_eraseIdx_perm _ _ hch)

/-- The spec's permutation predicate: length `n` and values a bijection onto
`0..n-1`. -/
def IsPermOf (l : List ℕ) (n : ℕ) : Prop :=
  l.Perm (List.range n)

instance (l : List ℕ) (n : ℕ) : Decidable (IsPermOf l n) :=
  inferInstanceAs (Decidable (List.Perm _ _))

/-- The initial random state is always a permutation of `0..n-1`. -/
theorem randPerm_isPermOf (n : ℕ) (g : ℕ → ℕ) (k : ℕ) : IsPermOf (randPerm n g k) n := by
  unfold IsPermOf randPerm
  exact (List.reverse_perm _).trans (drawSeq_perm g n (List.range n) (by simp) k)

theorem resample_ne (g : ℕ → ℕ) (len q1 : ℕ) : ∀ (fr k q2 k' : ℕ),
    resample g len q1 fr k = some (q2, k') → q2 ≠ q1
  | 0, _, _, _, h => by simp [resample] at h
  | fr + 1, k, q2, k', h => by
    rw [resample] at h
    by_cases he : random_queen_index g len k = q1
    · rw [if_pos he] at h
      exact resample_ne g len q1 fr (k + 1) q2 k' h
    · rw [if_neg he] at h
      cases h
      exact he

theorem resample_lt (g : ℕ → ℕ) (len q1 : ℕ) (hlen : 0 < len) : ∀ (fr k q2 k' : ℕ),
    resample g len q1 fr k = some (q2, k') → q2 < len
  | 0, _, _, _, h => by simp [resample] at h
  | fr + 1, k, q2, k', h => by
    rw [resample] at h
    by_cases he : random_queen_index g len k = q1
    · rw [if_pos he] at h
      exact resample_lt g len q1 hlen fr (k + 1) q2 k' h
    · rw [if_neg he] at h
      cases h
      exact Nat.mod_lt _ hlen

/-- What a successful `get_two_random_queens` returns: two distinct in-bounds
queen indices. -/
theorem get_two_random_queens_spec (g : ℕ → ℕ) (len k fr q1 q2 k' : ℕ)
    (h : get_two_random_queens g len k fr = some (q1, q2, k')) :
    q1 ≠ q2 ∧ (0 < len → q1 < len ∧ q2 < len) := by
  simp only [get_two_random_queens] at h
  cases hr : resample g len (random_queen_index g len k) fr (k + 1) with
  | none => rw [hr] at h; simp at h
  | some q => ?_
  rw [hr] at h
  simp only [Option.map_some'] at h
  cases h
  refine ⟨fun he => (resample_ne g len _ fr (k + 1) q.1 q.2 hr) he.symm, fun hlen => ?_⟩
  exact ⟨Nat.mod_lt _ hlen, resample_lt g len _ hlen fr (k + 1) q.1 q.2 hr⟩

/-- `HillClimbing::solve_with_callback`'s main loop.  State: current rows,
current score, no-improvement counter, stream cursor, accumulated callback
trace.  `pf` is the resampling fuel of `get_two_random_queens`, `fuel` bounds
the number of loop iterations. -/
def hcLoop (g : ℕ → ℕ) (pf : ℕ) :
    ℕ → List ℕ → ℕ → ℕ → ℕ → Trace → Option (List ℕ × ℕ × Trace)
  | 0, _, _, _, _, _ => none
  | fuel + 1, rows, cur, iters, k, tr =>
    if cur ≠ 0 ∧ iters ≤ 1000 then
      match get_two_random_queens g rows.length k pf with
      | none => none
      | some (q1, q2, k') =>
        let rows' := swapL rows q1 q2
        let s := score rows'
        if s < cur then hcLoop g pf fuel rows' s 0 k' (tr ++ [(rows', s)])
        else hcLoop g pf fuel (swapL rows' q1 q2) cur (iters + 1) k' tr
    else some (rows, cur, tr)

/-- `HillClimbing::solve_with_callback`: random initial permutation, one
callback before the loop, then the loop. -/
def hcSolve (g : ℕ → ℕ) (n pf fuel : ℕ) : Option (List ℕ × ℕ × Trace) :=
  let rows := randPerm n g 0
  let s := score rows
  hcLoop g pf fuel rows s 0 n [(rows, s)]

/-- The hill-climbing loop as C6 words it: terminate exactly when the score
reaches 0 or the no-improvement counter exceeds 1000, returning the current
state and its score; otherwise pick two distinct random columns, swap and
rescore; a strictly lower score keeps the move, resets the counter and invokes
the callback, anything else restores the previous assignment and increments the
counter. -/
def hcSpecLoop (g : ℕ → ℕ) (pf : ℕ) :
    ℕ → List ℕ → ℕ → ℕ → ℕ → Trace → Option (List ℕ × ℕ × Trace)
  | 0, _, _, _, _, _ => none
  | fuel + 1, rows, cur, iters, k, tr =>
    if cur = 0 ∨ 1000 < iters then some (rows, cur, tr)
    else
      match get_two_random_queens g rows.length k pf with
      | none => none
      | some (q1, q2, k') =>
        let rows' := swapL rows q1 q2
        let s := score rows'
        if s < cur then hcSpecLoop g pf fuel rows' s 0 k' (tr ++ [(rows', s)])
        else hcSpecLoop g pf fuel rows cur (iters + 1) k' tr

/-- The identity stream, used as a concrete random stream in witnesses. -/
def gId : ℕ → ℕ := fun k => k

/-- C6: `HillClimbing::solve_with_callback` iterates exactly as specified: it
picks two distinct random columns, swaps and rescores; a strictly lower score
keeps the move, resets the no-improvement counter and invokes the callback,
otherwise it swaps back — restoring the previous assignment — and increments
the counter; the loop terminates exactly when the score reaches 0 or the
counter exceeds 1000, returning the current state and score (`hcSpecLoop` is
the loop as worded by the claim; `hcLoop` is the code's loop). -/
theorem hc_loop_matches_spec :
    (∀ (g : ℕ → ℕ) (len k pf q1 q2 k' : ℕ),
        get_two_random_queens g len k pf = some (q1, q2, k') → q1 ≠ q2)
    ∧ ∀ (g : ℕ → ℕ) (pf fuel : ℕ) (rows : List ℕ) (cur iters k : ℕ) (tr : Trace),
        0 < rows.length →
        hcLoop g pf fuel rows cur iters k tr = hcSpecLoop g pf fuel rows cur iters k tr := by
  constructor
  · intro g len k pf q1 q2 k' h
    exact (get_two_random_queens_spec g len k pf q1 q2 k' h).1
  · intro g pf fuel
    induction fuel with
    | zero => intro rows cur iters k tr _; rfl
    | succ fuel ih =>
      intro rows cur iters k tr hrows
      rw [hcLoop, hcSpecLoop]
      by_cases hg : cur = 0 ∨ 1000 < iters
      · have hneg : ¬(cur ≠ 0 ∧ iters ≤ 1000) := by omega
        rw [if_neg hneg, if_pos hg]
      · have hpos : cur ≠ 0 ∧ iters ≤ 1000 := by omega
        rw [if_pos hpos, if_neg hg]
        cases hq : get_two_random_queens g rows.length k pf with
        | none => rfl
        | some t => ?_
        obtain ⟨q1, q2, k'⟩ := t
        have hb := (get_two_random_queens_spec g rows.length k pf q1 q2 k' hq).2 hrows
        dsimp only
        by_cases hs : score (swapL rows q1 q2) < cur
        · rw [if_pos hs, if_pos hs]
          exact ih (swapL rows q1 q2) _ 0 k' _ (by rw [length_swapL]; exact hrows)
        · rw [if_neg hs, if_neg hs, swapL_swapL rows q1 q2 hb.1 hb.2]
          exact ih rows cur (iters + 1) k' tr hrows

/-- Witness for C6 at a concrete pick and a concrete loop state. -/
theorem hc_loop_matches_spec_witness :
    (0 : ℕ) ≠ 1 ∧
      hcLoop gId 1 3 [1, 0] 1 0 0 [] = hcSpecLoop gId 1 3 [1, 0] 1 0 0 [] :=
  ⟨hc_loop_matches_spec.1 gId 2 0 1 0 1 2 (by decide),
   hc_loop_matches_spec.2 gId 1 3 [1, 0] 1 0 0 [] (by decide)⟩

/-- A `next_f32` draw: a float in `[0, 1)`. -/
abbrev UnitIco := {q : ℚ // 0 ≤ q ∧ q < 1}

/-- The comparison inside `SimulatedAnnealing::should_accept`:
`((new_score - old_score) as f32 / self.temperature).exp() > self.rng.next_f32()`. -/
def acceptReal (temperature : ℚ) (oldS newS : ℕ) (u : ℚ) : Prop :=
  (u : ℝ) < Real.exp (((newS - oldS : ℕ) : ℝ) / ((temperature : ℚ) : ℝ))

/-- Because the code exponentiates `+(new-old)/T` (not the Boltzmann
`-(new-old)/T`), the comparison always holds for `T > 1` and a draw in
`[0, 1)`: the exponent is nonnegative, so the exponential is `≥ 1 > u`. -/
theorem acceptReal_holds (temperature : ℚ) (oldS newS : ℕ) (u : ℚ)
    (ht : ¬ temperature ≤ 1) (hu : u < 1) : acceptReal temperature oldS newS u := by
  unfold acceptReal
  have hq : (1 : ℚ) < temperature := not_le.1 ht
  have hqr : (1 : ℝ) < ((temperature : ℚ) : ℝ) := by exact_mod_cast hq
  have hexp : (1 : ℝ) ≤ Real.exp (((newS - oldS : ℕ) : ℝ) / ((temperature : ℚ) : ℝ)) :=
    Real.one_le_exp (div_nonneg (Nat.cast_nonneg _) (le_of_lt (lt_trans one_pos hqr)))
  have hur : (u : ℝ) < 1 := by exact_mod_cast hu
  exact lt_of_lt_of_le hur hexp

/-- `SimulatedAnnealing::should_accept`, together with its `next_f32`
consumption: returns the decision and the next float cursor (a float is drawn
only when `temperature > 1`).  The comparison is decided by
`acceptReal_holds`: on the reachable inputs it is always true. -/
def should_accept (temperature : ℚ) (oldS newS : ℕ) (u : ℕ → UnitIco) (m : ℕ) : Bool × ℕ :=
  if h : temperature ≤ 1 then (false, m)
  else
    haveI : Decidable (acceptReal temperature oldS newS (u m).val) :=
      isTrue (acceptReal_holds temperature oldS newS (u m).val h (u m).property.2)
    (decide (acceptReal temperature oldS newS (u m).val), m + 1)

/-- The final state of `SimulatedAnnealing::solve_with_callback`'s loop. -/
structure SAOut where
  rows : List ℕ
  sc : ℕ
  temp : ℚ
  iters : ℕ
  tr : Trace
deriving Repr, DecidableEq

/-- `SimulatedAnnealing::solve_with_callback`'s main loop.  State: rows,
current score, temperature, no-improvement counter, `next_u32` cursor `k`,
`next_f32` cursor `m`, callback trace. -/
def saLoop (g : ℕ → ℕ) (u : ℕ → UnitIco) (cf : ℚ) (pf : ℕ) :
    ℕ → List ℕ → ℕ → ℚ → ℕ → ℕ → ℕ → Trace → Option SAOut
  | 0, _, _, _, _, _, _, _ => none
  | fuel + 1, rows, cur, temp, iters, k, m, tr =>
    if cur ≠ 0 ∧ (1 ≤ temp ∨ iters ≤ 1000) then
      match get_two_random_queens g rows.length k pf with
      | none => none
      | some (q1, q2, k') =>
        let rows' := swapL rows q1 q2
        let s := score rows'
        if s < cur then
          saLoop g u cf pf fuel rows' s (temp * (1 - cf)) 0 k' m (tr ++ [(rows', s)])
        else
          let am := should_accept temp cur s u m
          if am.1 then
            saLoop g u cf pf fuel rows' s (temp * (1 - cf)) 0 k' am.2 (tr ++ [(rows', s)])
          else
            saLoop g u cf pf fuel (swapL rows' q1 q2) cur (temp * (1 - cf)) (iters + 1) k'
              am.2 tr
    else some ⟨rows, cur, temp, iters, tr⟩

/-- `SimulatedAnnealing::solve_with_callback`: random initial permutation, one
callback before the loop, then the loop starting at `starting_temperature`. -/
def saSolve (g : ℕ → ℕ) (u : ℕ → UnitIco) (t0 cf : ℚ) (n pf fuel : ℕ) : Option SAOut :=
  let rows := randPerm n g 0
  let s := score rows
  saLoop g u cf pf fuel rows s t0 0 n 0 [(rows, s)]

/-- The C8 property of a callback trace, as an executable check: each reported
score is at most the previously reported one. -/
def scoresNonIncreasingB : Trace → Bool
  | [] => true
  | [_] => true
  | a :: b :: rest => decide (b.2 ≤ a.2) && scoresNonIncreasingB (b :: rest)

/-- The C8 property of a callback trace: each reported score is at most the
previously reported one. -/
def scoresNonIncreasing (tr : Trace) : Prop :=
  scoresNonIncreasingB tr = true

instance (tr : Trace) : Decidable (scoresNonIncreasing tr) :=
  inferInstanceAs (Decidable (_ = true))

/-- Appending a snapshot whose score is at most the last reported one preserves
the non-increasing property. -/
theorem scoresNonIncreasing_append : ∀ (tr : Trace) (hne : tr ≠ []) (x : List ℕ × ℕ),
    scoresNonIncreasing tr → x.2 ≤ (tr.getLast hne).2 → scoresNonIncreasing (tr ++ [x])
  | [], hne, _, _, _ => absurd rfl hne
  | [a], _, x, _, hx => by
    simp only [List.getLast_singleton] at hx
    simp only [scoresNonIncreasing, List.cons_append, List.nil_append, scoresNonIncreasingB,
      Bool.and_eq_true, decide_eq_true_eq]
    exact ⟨hx, trivial⟩
  | a :: b :: rest, _, x, h, hx => by
    simp only [scoresNonIncreasing, List.cons_append, scoresNonIncreasingB,
      Bool.and_eq_true, decide_eq_true_eq] at h ⊢
    have hgl : ((a :: b :: rest).getLast (by simp)).2 = ((b :: rest).getLast (by simp)).2 := by
      rw [List.getLast_cons (by simp)]
    refine ⟨h.1, ?_⟩
    have := scoresNonIncreasing_append (b :: rest) (by simp) x h.2 (by rw [← hgl]; exact hx)
    simpa [scoresNonIncreasing, List.cons_append] using this

/-- Concrete `next_u32` stream driving the n=4 runs used in counterexamples:
initial permutation `[0,2,1,3]`, then picks `(1,2)`, `(0,1)`, `(1,3)`, `(2,3)`. -/
def gT : ℕ → ℕ := fun k => [3, 1, 1, 0, 1, 2, 0, 1, 1, 3, 2, 3].getD k 0

/-- Concrete all-zero `next_f32` stream. -/
def uZero : ℕ → UnitIco := fun _ => ⟨0, by norm_num⟩

/-- The hill-climbing loop only ever appends strictly smaller scores: if the
entering trace is non-increasing and ends at the current score, the final trace
is non-increasing. -/
theorem hcLoop_trace_mono (g : ℕ → ℕ) (pf : ℕ) (fuel : ℕ) :
    ∀ (rows : List ℕ) (cur iters k : ℕ) (tr : Trace) (out : List ℕ × ℕ × Trace)
      (hne : tr ≠ []),
      hcLoop g pf fuel rows cur iters k tr = some out →
      scoresNonIncreasing tr → (tr.getLast hne).2 = cur →
      scoresNonIncreasing out.2.2 := by
  induction fuel with
  | zero =>
    intro rows cur iters k tr out hne h
    exact absurd h (by rw [hcLoop]; simp)
  | succ fuel ih =>
    intro rows cur iters k tr out hne h hchain hlast
    rw [hcLoop] at h
    by_cases hg : cur ≠ 0 ∧ iters ≤ 1000
    · rw [if_pos hg] at h
      cases hq : get_two_random_queens g rows.length k pf with
      | none => rw [hq] at h; exact absurd h (by simp)
      | some t => ?_
      rw [hq] at h
      obtain ⟨q1, q2, k'⟩ := t
      dsimp only at h
      by_cases hs : score (swapL rows q1 q2) < cur
      · rw [if_pos hs] at h
        have hne' : tr ++ [(swapL rows q1 q2, score (swapL rows q1 q2))] ≠ [] := by simp
        refine ih _ _ _ _ _ _ hne' h ?_ ?_
        · exact scoresNonIncreasing_append tr hne _ hchain (by rw [hlast]; exact le_of_lt hs)
        · simp [List.getLast_append]
      · rw [if_neg hs] at h
        exact ih _ _ _ _ _ _ hne h hchain hlast
    · rw [if_neg hg] at h
      cases h
      exact hchain

/-- C8 (amended): over every terminating hill-climbing run, the callback
scores are non-increasing: the initial callback reports the starting score and
every later callback reports a strictly improved score. -/
theorem hc_callback_scores_nonincreasing (g : ℕ → ℕ) (n pf fuel : ℕ)
    (out : List ℕ × ℕ × Trace) (h : hcSolve g n pf fuel = some out) :
    scoresNonIncreasing out.2.2 := by
  unfold hcSolve at h
  exact hcLoop_trace_mono g pf fuel _ _ _ _ _ out (by simp) h rfl (by simp)

/-- Witness for C8's amended theorem on a concrete terminating run. -/
theorem hc_callback_scores_nonincreasing_witness :
    scoresNonIncreasing
      [([0, 2, 1, 3], 2), ([2, 0, 1, 3], 1), ([2, 0, 3, 1], 0)] :=
  hc_callback_scores_nonincreasing gT 4 2 20
    ([2, 0, 3, 1], 0, [([0, 2, 1, 3], 2), ([2, 0, 1, 3], 1), ([2, 0, 3, 1], 0)])
    (by decide)

unseal Rat.mul Rat.sub Rat.add Rat.inv in
/-- C8 counterexample: a terminating simulated-annealing run (temperature 2,
cooling factor 0) whose callback scores go `2, 6, 2, 1, 0` — the second
callback reports a *larger* score than the first, because the accepted
worsening move is reported.  So the claim fails for simulated annealing. -/
theorem sa_callback_scores_can_increase :
    saSolve gT uZero 2 0 4 2 10 = some ⟨[1, 3, 0, 2], 0, 2, 0,
      [([0, 2, 1, 3], 2), ([0, 1, 2, 3], 6), ([1, 0, 2, 3], 2),
       ([1, 3, 2, 0], 1), ([1, 3, 0, 2], 0)]⟩ ∧
    ¬ scoresNonIncreasing
      [([0, 2, 1, 3], 2), ([0, 1, 2, 3], 6), ([1, 0, 2, 3], 2),
       ([1, 3, 2, 0], 1), ([1, 3, 0, 2], 0)] := by
  constructor
  · decide
  · decide

/-- Modelled from the spec: the acceptance rule C1 states — a non-improving
move is accepted with probability `exp(-(newScore - oldScore) / temperature)`,
i.e. accepted iff the drawn `u` satisfies `u < exp(-(new - old)/T)`. -/
def acceptRuleSpec (temperature : ℚ) (oldS newS : ℕ) (u : ℚ) : Prop :=
  (u : ℝ) < Real.exp (-(((newS - oldS : ℕ) : ℝ)) / ((temperature : ℚ) : ℝ))

/-- Concrete `next_f32` stream drawing `9/10` forever. -/
def uNine : ℕ → UnitIco := fun _ => ⟨9 / 10, by norm_num⟩

/-- C1 (code bug): the code computes `exp(+(new-old)/T) > u`, so whenever
`temperature > 1` it accepts EVERY non-improving move (probability 1, for
every draw in `[0,1)`), while the claimed rule `exp(-(new-old)/T)` would
reject e.g. `old = 0`, `new = 2`, `T = 2`, `u = 9/10` (there
`exp(-1) ≈ 0.368 ≤ 9/10`).  The `temperature ≤ 1` half of the claim does hold:
`should_accept` then returns false. -/
theorem should_accept_always_true_when_hot :
    (∀ (temperature : ℚ) (oldS newS : ℕ) (u : ℕ → UnitIco) (m : ℕ),
      ¬ temperature ≤ 1 → (should_accept temperature oldS newS u m).1 = true)
    ∧ (∀ (temperature : ℚ) (oldS newS : ℕ) (u : ℕ → UnitIco) (m : ℕ),
      temperature ≤ 1 → (should_accept temperature oldS newS u m).1 = false)
    ∧ ¬ acceptRuleSpec 2 0 2 (9 / 10) := by
  refine ⟨?_, ?_, ?_⟩
  · intro temperature oldS newS u m ht
    simp only [should_accept, dif_neg ht]
    rfl
  · intro temperature oldS newS u m ht
    simp only [should_accept, dif_pos ht]
  · unfold acceptRuleSpec
    rw [not_lt]
    have harg : (-(((2 - 0 : ℕ) : ℕ) : ℝ)) / (((2 : ℚ) : ℚ) : ℝ) = -1 := by norm_num
    rw [harg]
    have h2 : (2 : ℝ) < Real.exp 1 := lt_trans (by norm_num) Real.exp_one_gt_d9
    have he : Real.exp (-1) < 1 / 2 := by
      rw [Real.exp_neg]
      rw [show (1 : ℝ) / 2 = 2⁻¹ by norm_num]
      exact inv_lt_inv_of_lt (by norm_num) h2
    have : ((9 / 10 : ℚ) : ℝ) = 9 / 10 := by norm_num
    rw [this]
    linarith

/-- Witness for C1's theorem at the failing input. -/
theorem should_accept_always_true_when_hot_witness :
    (should_accept 2 0 2 uNine 0).1 = true ∧ (should_accept (1 / 2) 0 2 uNine 0).1 = false :=
  ⟨should_accept_always_true_when_hot.1 2 0 2 uNine 0 (by norm_num),
   should_accept_always_true_when_hot.2.1 (1 / 2) 0 2 uNine 0 (by norm_num)⟩

/-- Any assignment scores at most `len * len` (there are fewer pairs). -/
theorem score_le_sq (rows : List ℕ) : score rows ≤ rows.length * rows.length := by
  unfold score
  calc (∑ i in Finset.range rows.length, ∑ j in Finset.Ico (i + 1) rows.length,
        if can_hit (i, rows.getD i 0) (j, rows.getD j 0) then 1 else 0)
      ≤ ∑ i in Finset.range rows.length, ∑ _j in Finset.Ico (i + 1) rows.length, 1 := by
        refine Finset.sum_le_sum fun i _ => Finset.sum_le_sum fun j _ => ?_
        split <;> omega
    _ ≤ ∑ _i in Finset.range rows.length, rows.length := by
        refine Finset.sum_le_sum fun i _ => ?_
        rw [Finset.sum_const, Nat.card_Ico, smul_eq_mul, mul_one]
        omega
    _ = rows.length * rows.length := by rw [Finset.sum_const, Finset.card_range, smul_eq_mul]

/-- Assignments with at most one queen have no attacking pair. -/
theorem score_len_le_one (rows : List ℕ) (h : rows.length ≤ 1) : score rows = 0 := by
  unfold score
  refine Finset.sum_eq_zero fun i hi => ?_
  rw [Finset.mem_range] at hi
  have : Finset.Ico (i + 1) rows.length = ∅ := Finset.Ico_eq_empty (by omega)
  rw [this, Finset.sum_empty]

/-- A nonzero score needs at least two queens. -/
theorem score_pos_len (rows : List ℕ) (h : score rows ≠ 0) : 2 ≤ rows.length := by
  by_contra hlt
  exact h (score_len_le_one rows (by omega))

theorem randPerm_length (n : ℕ) (g : ℕ → ℕ) (k : ℕ) : (randPerm n g k).length = n := by
  have := (randPerm_isPermOf n g k).length_eq
  simpa using this

/-- On a stream whose consecutive draws differ mod `n`, `get_two_random_queens`
succeeds at once, consuming two draws. -/
theorem pick2_succeeds (g : ℕ → ℕ) (n k pf : ℕ) (hpf : 1 ≤ pf)
    (hgood : g (k + 1) % n ≠ g k % n) :
    get_two_random_queens g n k pf = some (g k % n, g (k + 1) % n, k + 2) := by
  obtain ⟨pf', rfl⟩ : ∃ pf', pf = pf' + 1 := ⟨pf - 1, by omega⟩
  simp only [get_two_random_queens, resample, random_queen_index]
  rw [if_neg hgood]
  rfl

/-- Once the system is cooled (`temperature < 1`), the annealing loop
terminates: only strictly improving moves are accepted (each resets the
counter but drops the score), and 1001 straight rejections end the loop. -/
theorem saLoop_term_cooled (g : ℕ → ℕ) (u : ℕ → UnitIco) (cf : ℚ) (pf : ℕ) (n : ℕ)
    (hpf : 1 ≤ pf) (hgood : ∀ j, g (j + 1) % n ≠ g j % n)
    (hcf0 : 0 ≤ cf) (hcf1 : cf < 1) :
    ∀ (fuel : ℕ) (rows : List ℕ) (cur : ℕ) (temp : ℚ) (iters k m : ℕ) (tr : Trace),
      rows.length = n → cur = score rows → temp < 1 → 0 ≤ temp →
      cur * 1002 + 1002 ≤ fuel + min iters 1001 →
      ∃ out, saLoop g u cf pf fuel rows cur temp iters k m tr = some out := by
  intro fuel
  induction fuel with
  | zero =>
    intro rows cur temp iters k m tr hlen hcur htlt ht0 hfuel
    omega
  | succ fuel ih =>
    intro rows cur temp iters k m tr hlen hcur htlt ht0 hfuel
    rw [saLoop]
    by_cases hg : cur ≠ 0 ∧ (1 ≤ temp ∨ iters ≤ 1000)
    · rw [if_pos hg]
      have hit : iters ≤ 1000 := by
        rcases hg.2 with h | h
        · exact absurd h (not_le.2 htlt)
        · exact h
      have hlen2 : 2 ≤ rows.length := score_pos_len rows (hcur ▸ hg.1)
      rw [hlen, pick2_succeeds g n k pf hpf (hgood k)]
      have hq1 : g k % n < rows.length := by rw [hlen]; exact Nat.mod_lt _ (by omega)
      have hq2 : g (k + 1) % n < rows.length := by rw [hlen]; exact Nat.mod_lt _ (by omega)
      have hmul_le : temp * (1 - cf) ≤ temp := by
        have h1 : (1 - cf) ≤ 1 := by linarith
        calc temp * (1 - cf) ≤ temp * 1 := mul_le_mul_of_nonneg_left h1 ht0
          _ = temp := mul_one temp
      have hmul_lt : temp * (1 - cf) < 1 := lt_of_le_of_lt hmul_le htlt
      have hmul_0 : 0 ≤ temp * (1 - cf) := mul_nonneg ht0 (by linarith)
      dsimp only
      by_cases hs : score (swapL rows (g k % n) (g (k + 1) % n)) < cur
      · rw [if_pos hs]
        refine ih (swapL rows (g k % n) (g (k + 1) % n)) _ _ 0 _ _ _
          (by rw [length_swapL]; exact hlen) rfl hmul_lt hmul_0 ?_
        omega
      · rw [if_neg hs]
        have hsa : should_accept temp cur (score (swapL rows (g k % n) (g (k + 1) % n))) u m
            = (false, m) := by
          unfold should_accept
          rw [dif_pos (le_of_lt htlt)]
        simp only [hsa, Bool.false_eq_true, if_false]
        rw [swapL_swapL rows _ _ hq1 hq2]
        refine ih rows cur _ (iters + 1) _ _ _ hlen hcur hmul_lt hmul_0 ?_
        omega
    · rw [if_neg hg]
      exact ⟨_, rfl⟩

/-- Termination of the annealing loop: if `msteps` cooling steps suffice to
bring the temperature below 1, `msteps + n²·1002 + 1002` iterations suffice to
finish. -/
theorem saLoop_term_hot (g : ℕ → ℕ) (u : ℕ → UnitIco) (cf : ℚ) (pf : ℕ) (n : ℕ)
    (hpf : 1 ≤ pf) (hgood : ∀ j, g (j + 1) % n ≠ g j % n)
    (hcf0 : 0 ≤ cf) (hcf1 : cf < 1) :
    ∀ (msteps fuel : ℕ) (rows : List ℕ) (cur : ℕ) (temp : ℚ) (iters k m : ℕ) (tr : Trace),
      rows.length = n → cur = score rows → 0 ≤ temp →
      temp * (1 - cf) ^ msteps < 1 →
      msteps + n * n * 1002 + 1002 ≤ fuel →
      ∃ out, saLoop g u cf pf fuel rows cur temp iters k m tr = some out := by
  intro msteps
  induction msteps with
  | zero =>
    intro fuel rows cur temp iters k m tr hlen hcur ht0 hpow hfuel
    rw [pow_zero, mul_one] at hpow
    refine saLoop_term_cooled g u cf pf n hpf hgood hcf0 hcf1 fuel rows cur temp iters k m tr
      hlen hcur hpow ht0 ?_
    have hsc : cur ≤ n * n := by
      rw [hcur, ← hlen]
      exact score_le_sq rows
    have hN : 0 ≤ n * n := Nat.zero_le _
    omega
  | succ msteps ih =>
    intro fuel rows cur temp iters k m tr hlen hcur ht0 hpow hfuel
    obtain ⟨fuel', rfl⟩ : ∃ f, fuel = f + 1 := ⟨fuel - 1, by omega⟩
    rw [saLoop]
    by_cases hg : cur ≠ 0 ∧ (1 ≤ temp ∨ iters ≤ 1000)
    · rw [if_pos hg]
      have hlen2 : 2 ≤ rows.length := score_pos_len rows (hcur ▸ hg.1)
      rw [hlen, pick2_succeeds g n k pf hpf (hgood k)]
      have hq1 : g k % n < rows.length := by rw [hlen]; exact Nat.mod_lt _ (by omega)
      have hq2 : g (k + 1) % n < rows.length := by rw [hlen]; exact Nat.mod_lt _ (by omega)
      have hmul_0 : 0 ≤ temp * (1 - cf) := mul_nonneg ht0 (by linarith)
      have hpow' : temp * (1 - cf) * (1 - cf) ^ msteps < 1 := by
        rw [mul_assoc, ← pow_succ']
        exact hpow
      dsimp only
      by_cases hs : score (swapL rows (g k % n) (g (k + 1) % n)) < cur
      · rw [if_pos hs]
        exact ih fuel' _ _ _ 0 _ _ _ (by rw [length_swapL]; exact hlen) rfl hmul_0 hpow'
          (by omega)
      · rw [if_neg hs]
        by_cases hacc :
            (should_accept temp cur (score (swapL rows (g k % n) (g (k + 1) % n))) u m).1 = true
        · rw [if_pos hacc]
          exact ih fuel' _ _ _ 0 _ _ _ (by rw [length_swapL]; exact hlen) rfl hmul_0 hpow'
            (by omega)
        · rw [if_neg hacc]
          rw [swapL_swapL rows _ _ hq1 hq2]
          exact ih fuel' rows cur _ (iters + 1) _ _ _ hlen hcur hmul_0 hpow' (by omega)
    · rw [if_neg hg]
      exact ⟨_, rfl⟩

/-- The final temperature of a terminating annealing loop is the entering one
times `(1 - coolingFactor)^steps` — it is multiplied by `1 - cf` once per
iteration. -/
theorem saLoop_temp (g : ℕ → ℕ) (u : ℕ → UnitIco) (cf : ℚ) (pf : ℕ) :
    ∀ (fuel : ℕ) (rows : List ℕ) (cur : ℕ) (temp : ℚ) (iters k m : ℕ) (tr : Trace)
      (out : SAOut), saLoop g u cf pf fuel rows cur temp iters k m tr = some out →
      ∃ steps, out.temp = temp * (1 - cf) ^ steps := by
  intro fuel
  induction fuel with
  | zero =>
    intro rows cur temp iters k m tr out h
    exact absurd h (by rw [saLoop]; simp)
  | succ fuel ih =>
    intro rows cur temp iters k m tr out h
    rw [saLoop] at h
    by_cases hg : cur ≠ 0 ∧ (1 ≤ temp ∨ iters ≤ 1000)
    · rw [if_pos hg] at h
      cases hq : get_two_random_queens g rows.length k pf with
      | none => rw [hq] at h; exact absurd h (by simp)
      | some t => ?_
      rw [hq] at h
      obtain ⟨q1, q2, k'⟩ := t
      dsimp only at h
      have step : ∀ t' : ℚ, t' = temp * (1 - cf) →
          (∃ steps, out.temp = t' * (1 - cf) ^ steps) →
          ∃ steps, out.temp = temp * (1 - cf) ^ steps := by
        rintro t' rfl ⟨steps, hsteps⟩
        exact ⟨steps + 1, by rw [hsteps, mul_assoc, ← pow_succ']⟩
      by_cases hs : score (swapL rows q1 q2) < cur
      · rw [if_pos hs] at h
        exact step _ rfl (ih _ _ _ _ _ _ _ _ h)
      · rw [if_neg hs] at h
        by_cases hacc : (should_accept temp cur (score (swapL rows q1 q2)) u m).1 = true
        · rw [if_pos hacc] at h
          exact step _ rfl (ih _ _ _ _ _ _ _ _ h)
        · rw [if_neg hacc] at h
          exact step _ rfl (ih _ _ _ _ _ _ _ _ h)
    · rw [if_neg hg] at h
      cases h
      exact ⟨0, by rw [pow_zero, mul_one]⟩

/-- A terminating annealing loop ends exactly at the negation of the loop
guard: score 0, or temperature below 1 with the counter above 1000. -/
theorem saLoop_exit (g : ℕ → ℕ) (u : ℕ → UnitIco) (cf : ℚ) (pf : ℕ) :
    ∀ (fuel : ℕ) (rows : List ℕ) (cur : ℕ) (temp : ℚ) (iters k m : ℕ) (tr : Trace)
      (out : SAOut), saLoop g u cf pf fuel rows cur temp iters k m tr = some out →
      out.sc = 0 ∨ (out.temp < 1 ∧ 1000 < out.iters) := by
  intro fuel
  induction fuel with
  | zero =>
    intro rows cur temp iters k m tr out h
    exact absurd h (by rw [saLoop]; simp)
  | succ fuel ih =>
    intro rows cur temp iters k m tr out h
    rw [saLoop] at h
    by_cases hg : cur ≠ 0 ∧ (1 ≤ temp ∨ iters ≤ 1000)
    · rw [if_pos hg] at h
      cases hq : get_two_random_queens g rows.length k pf with
      | none => rw [hq] at h; exact absurd h (by simp)
      | some t => ?_
      rw [hq] at h
      obtain ⟨q1, q2, k'⟩ := t
      dsimp only at h
      by_cases hs : score (swapL rows q1 q2) < cur
      · rw [if_pos hs] at h
        exact ih _ _ _ _ _ _ _ _ h
      · rw [if_neg hs] at h
        by_cases hacc : (should_accept temp cur (score (swapL rows q1 q2)) u m).1 = true
        · rw [if_pos hacc] at h
          exact ih _ _ _ _ _ _ _ _ h
        · rw [if_neg hacc] at h
          exact ih _ _ _ _ _ _ _ _ h
    · rw [if_neg hg] at h
      cases h
      rcases not_and_or.1 hg with hc | ht
      · exact Or.inl (not_not.1 hc)
      · exact Or.inr ⟨not_le.1 fun hh => ht (Or.inl hh), not_le.1 fun hh => ht (Or.inr hh)⟩

/-- Conversely, as soon as the guard fails the loop returns the current state
unchanged (given any fuel). -/
theorem saLoop_exit_now (g : ℕ → ℕ) (u : ℕ → UnitIco) (cf : ℚ) (pf fuel : ℕ)
    (rows : List ℕ) (cur : ℕ) (temp : ℚ) (iters k m : ℕ) (tr : Trace)
    (h : cur = 0 ∨ (temp < 1 ∧ 1000 < iters)) :
    saLoop g u cf pf (fuel + 1) rows cur temp iters k m tr
      = some ⟨rows, cur, temp, iters, tr⟩ := by
  rw [saLoop, if_neg]
  rintro ⟨hc, hd⟩
  rcases h with h | h
  · exact hc h
  · rcases hd with hd | hd
    · exact absurd hd (not_le.2 h.1)
    · omega

/-- C7 (amended — requires `startingTemperature ≥ 0` for monotonicity): the
temperature is multiplied by `(1 - coolingFactor)` once per iteration, so for
`coolingFactor ∈ [0,1)` and a nonnegative entering temperature the final
temperature never exceeds the entering one; the loop returns exactly when the
score is 0 or (temperature < 1 and counter > 1000); and with
`coolingFactor > 0` (and a random stream whose consecutive draws differ, so
the pick loop returns) every run terminates. -/
theorem sa_temperature_and_termination :
    (∀ (g : ℕ → ℕ) (u : ℕ → UnitIco) (cf : ℚ) (pf fuel : ℕ) (rows : List ℕ) (cur : ℕ)
       (temp : ℚ) (iters k m : ℕ) (tr : Trace) (out : SAOut),
       saLoop g u cf pf fuel rows cur temp iters k m tr = some out →
       (∃ steps, out.temp = temp * (1 - cf) ^ steps)
       ∧ (0 ≤ temp → 0 ≤ cf → cf < 1 → out.temp ≤ temp)
       ∧ (out.sc = 0 ∨ (out.temp < 1 ∧ 1000 < out.iters)))
    ∧ (∀ (g : ℕ → ℕ) (u : ℕ → UnitIco) (cf : ℚ) (pf fuel : ℕ) (rows : List ℕ) (cur : ℕ)
       (temp : ℚ) (iters k m : ℕ) (tr : Trace),
       cur = 0 ∨ (temp < 1 ∧ 1000 < iters) →
       saLoop g u cf pf (fuel + 1) rows cur temp iters k m tr
         = some ⟨rows, cur, temp, iters, tr⟩)
    ∧ (∀ (g : ℕ → ℕ) (u : ℕ → UnitIco) (t0 cf : ℚ) (n pf : ℕ),
       0 < cf → cf < 1 → 0 ≤ t0 → 1 ≤ pf →
       (2 ≤ n → ∀ j, g (j + 1) % n ≠ g j % n) →
       ∃ fuel out, saSolve g u t0 cf n pf fuel = some out) := by
  refine ⟨?_, ?_, ?_⟩
  · intro g u cf pf fuel rows cur temp iters k m tr out h
    obtain ⟨steps, hsteps⟩ := saLoop_temp g u cf pf fuel rows cur temp iters k m tr out h
    refine ⟨⟨steps, hsteps⟩, ?_, saLoop_exit g u cf pf fuel rows cur temp iters k m tr out h⟩
    intro ht0 hcf0 hcf1
    rw [hsteps]
    have hpow : (1 - cf) ^ steps ≤ 1 := pow_le_one₀ (by linarith) (by linarith)
    calc temp * (1 - cf) ^ steps ≤ temp * 1 := mul_le_mul_of_nonneg_left hpow ht0
      _ = temp := mul_one temp
  · intro g u cf pf fuel rows cur temp iters k m tr h
    exact saLoop_exit_now g u cf pf fuel rows cur temp iters k m tr h
  · intro g u t0 cf n pf hcf0 hcf1 ht0 hpf hgood
    by_cases hcur : score (randPerm n g 0) = 0
    · refine ⟨1, ⟨randPerm n g 0, score (randPerm n g 0), t0, 0,
        [(randPerm n g 0, score (randPerm n g 0))]⟩, ?_⟩
      unfold saSolve
      exact saLoop_exit_now g u cf pf 0 _ _ t0 0 n 0 _ (Or.inl hcur)
    · have hn2 : 2 ≤ n := by
        have := score_pos_len _ hcur
        rwa [randPerm_length] at this
      obtain ⟨ms, hms⟩ : ∃ ms, t0 * (1 - cf) ^ ms < 1 := by
        by_cases h1 : t0 < 1
        · exact ⟨0, by rw [pow_zero, mul_one]; exact h1⟩
        · have ht0p : (0 : ℚ) < t0 := lt_of_lt_of_le one_pos (not_lt.1 h1)
          obtain ⟨ms, hms⟩ := exists_pow_lt_of_lt_one (x := 1 / t0) (by positivity)
            (show (1 : ℚ) - cf < 1 by linarith)
          refine ⟨ms, ?_⟩
          calc t0 * (1 - cf) ^ ms < t0 * (1 / t0) := mul_lt_mul_of_pos_left hms ht0p
            _ = 1 := by field_simp
      obtain ⟨out, hout⟩ := saLoop_term_hot g u cf pf n hpf (hgood hn2) (le_of_lt hcf0) hcf1
        ms (ms + n * n * 1002 + 1002) (randPerm n g 0) _ t0 0 n 0
        [(randPerm n g 0, score (randPerm n g 0))] (randPerm_length n g 0) rfl ht0 hms
        (le_refl _)
      exact ⟨ms + n * n * 1002 + 1002, out, by unfold saSolve; exact hout⟩

/-- Witness for C7 at concrete inputs: a loop state that exits at once, and a
terminating n=1 run. -/
theorem sa_temperature_and_termination_witness :
    (∃ steps, (5 : ℚ) = 5 * (1 - 1 / 2) ^ steps) ∧
      (∃ fuel out, saSolve gId uZero 5 (1 / 2) 1 1 fuel = some out) :=
  ⟨(sa_temperature_and_termination.1 gId uZero (1 / 2) 1 1 [0] 0 5 0 1 0 []
      ⟨[0], 0, 5, 0, []⟩ (by decide)).1,
   sa_temperature_and_termination.2.2 gId uZero 5 (1 / 2) 1 1 (by norm_num) (by norm_num)
      (by norm_num) (by norm_num) (fun h2 => absurd h2 (by norm_num))⟩

unseal Rat.mul Rat.sub Rat.add Rat.inv in
/-- C7 counterexample: with `startingTemperature = -2` and
`coolingFactor = 1/2 ∈ [0,1)`, a terminating run ends with temperature `-1/8`,
greater than the starting `-2` — the temperature sequence is *not*
monotonically non-increasing as the claim states it. -/
theorem sa_temperature_can_increase :
    saSolve gT uZero (-2) (1 / 2) 4 2 10 = some ⟨[2, 0, 3, 1], 0, -1 / 8, 0,
      [([0, 2, 1, 3], 2), ([2, 0, 1, 3], 1), ([2, 0, 3, 1], 0)]⟩ ∧
    ¬ ((-1 / 8 : ℚ) ≤ -2) := by
  constructor
  · decide
  · decide

/-- Stable ascending insertion by score (helper of `sortByScore`). -/
def insertByScore (x : List ℕ) : List (List ℕ) → List (List ℕ)
  | [] => [x]
  | y :: ys => if score y < score x then y :: insertByScore x ys else x :: y :: ys

/-- `sort_by_key(|s| s.score())`: Rust's sort is stable, so it is extensionally
the stable ascending insertion sort by score. -/
def sortByScore : List (List ℕ) → List (List ℕ)
  | [] => []
  | x :: xs => insertByScore x (sortByScore xs)

/-- The `for _ in 0..count { states.push(GenericChallengeState::new(size, rng)) }`
initialisation used by local beam search and the genetic algorithm; each state
consumes `size` draws. -/
def initStates (g : ℕ → ℕ) (n : ℕ) : ℕ → ℕ → List (List ℕ)
  | 0, _ => []
  | c + 1, k => randPerm n g k :: initStates g n c (k + n)

/-- The first `for state in &states` scan of `LocalBeamSearch`: callback on the
first state and on any zero-score state; return the first zero-score state. -/
def lbsScan : List (List ℕ) → Bool → Trace → Trace × Option (List ℕ)
  | [], _, tr => (tr, none)
  | st :: rest, isFirst, tr =>
    let sc := score st
    let tr' := if isFirst = true ∨ sc = 0 then tr ++ [(st, sc)] else tr
    if sc = 0 then (tr', some st) else lbsScan rest false tr'

/-- All successors of all states: swap every unordered pair of columns. -/
def lbsSuccessors (n : ℕ) (states : List (List ℕ)) : List (List ℕ) :=
  states.bind fun st =>
    (List.range n).bind fun i =>
      (List.range' (i + 1) (n - (i + 1))).map fun j => swapL st i j

/-- `LocalBeamSearch::solve_with_callback`'s `loop`: scan for a solution, else
replace the states with the best `state_count` successors. -/
def lbsLoop (n cnt : ℕ) : ℕ → List (List ℕ) → Trace → Option (List ℕ × ℕ × Trace)
  | 0, _, _ => none
  | fuel + 1, states, tr =>
    match lbsScan states true tr with
    | (tr', some st) => some (st, 0, tr')
    | (tr', none) => lbsLoop n cnt fuel ((sortByScore (lbsSuccessors n states)).take cnt) tr'

/-- `LocalBeamSearch::solve_with_callback`. -/
def lbsSolve (g : ℕ → ℕ) (n cnt fuel : ℕ) : Option (List ℕ × ℕ × Trace) :=
  lbsLoop n cnt fuel (initStates g n cnt 0) []

/-- `GeneticAlgorithmConfig`. -/
structure GAConfig where
  generation_size : ℕ
  elitism : ℚ
  crossover_probability : ℚ
  mutation_probability : ℚ
  generation_count : ℕ

/-- `GeneticAlgorithm::maybe_mutate`: `size` Bernoulli trials, each success
swapping two random distinct queens. -/
def maybe_mutate (g : ℕ → ℕ) (u : ℕ → UnitIco) (pm : ℚ) (pf : ℕ) :
    ℕ → List ℕ → ℕ → ℕ → Option (List ℕ × ℕ × ℕ)
  | 0, rows, k, m => some (rows, k, m)
  | t + 1, rows, k, m =>
    if ((u m : ℚ)) < pm then
      match get_two_random_queens g rows.length k pf with
      | none => none
      | some (q1, q2, k') => maybe_mutate g u pm pf t (swapL rows q1 q2) k' (m + 1)
    else maybe_mutate g u pm pf t rows k (m + 1)

/-- The genetic algorithm's per-generation scan over the sorted population:
callbacks, early return of a zero-score individual, and accumulation of
`max_score` and `scores`. -/
def gaScan : List (List ℕ) → Bool → ℕ → List ℕ → Trace →
    Trace × Option (List ℕ) × ℕ × List ℕ
  | [], _, maxS, scores, tr => (tr, none, maxS, scores)
  | st :: rest, isFirst, maxS, scores, tr =>
    let sc := score st
    let tr' := if isFirst = true ∨ sc = 0 then tr ++ [(st, sc)] else tr
    if sc = 0 then (tr', some st, maxS, scores)
    else gaScan rest false (max maxS sc) (scores ++ [sc]) tr'

/-- The elite-copy loop: `while percent_so_far < elitism` push the next sorted
individual; `none` models the out-of-bounds panic when the population is
exhausted first. -/
def eliteLoop (elitism perEach : ℚ) : List (List ℕ) → ℚ → Option (List (List ℕ))
  | [], soFar => if soFar < elitism then none else some []
  | st :: rest, soFar =>
    if soFar < elitism then
      (eliteLoop elitism perEach rest (soFar + perEach)).map fun l => st :: l
    else some []

/-- The inner fitness-proportional scan: walk `scores.iter().enumerate().rev()`
accumulating the selection probability; `none` models the `assert!(chosen_one)`
panic. -/
def selScan (maxS totalInv : ℕ) (perEach p : ℚ) : List (ℕ × ℕ) → ℚ → Option ℕ
  | [], _ => none
  | (i, sc) :: rest, previous =>
    let probability := if totalInv = 0 then previous + perEach
      else previous + ((maxS - sc : ℕ) : ℚ) / (totalInv : ℚ)
    if p < probability then some i else selScan maxS totalInv perEach p rest probability

/-- The selection loop filling the non-elite slots, one `next_f32` per slot. -/
def selLoop (gen : List (List ℕ)) (scores : List ℕ) (maxS totalInv : ℕ) (perEach : ℚ)
    (u : ℕ → UnitIco) : ℕ → ℕ → Option (List (List ℕ) × ℕ)
  | 0, m => some ([], m)
  | slots + 1, m =>
    match selScan maxS totalInv perEach ((u m : ℚ)) scores.enum.reverse 0 with
    | none => none
    | some i =>
      match gen.get? i with
      | none => none
      | some st =>
        (selLoop gen scores maxS totalInv perEach u slots (m + 1)).map fun r =>
          (st :: r.1, r.2)

/-- Exchanging the first `split` row values between two individuals (the
`mem::swap` loop of the crossover steps). -/
def crossPrefix (a b : List ℕ) (split : ℕ) : List ℕ × List ℕ :=
  ((List.range a.length).map fun j => if j < split then b.getD j 0 else a.getD j 0,
   (List.range b.length).map fun j => if j < split then a.getD j 0 else b.getD j 0)

/-- The adjacent-pair crossover pass over the non-elite slice: for each `i`,
with probability `crossover_probability` exchange a random prefix between
individuals `i` and `i+1` (sequentially, so the crossed `i+1` feeds the next
pair). -/
def crossAdjGo (g : ℕ → ℕ) (u : ℕ → UnitIco) (pc : ℚ) (n : ℕ) :
    List ℕ → List (List ℕ) → ℕ → ℕ → List (List ℕ) × ℕ × ℕ
  | a, [], k, m => ([a], k, m)
  | a, b :: rest, k, m =>
    if ((u m : ℚ)) < pc then
      let split := g k % n
      let ab := crossPrefix a b split
      let r := crossAdjGo g u pc n ab.2 rest (k + 1) (m + 1)
      (ab.1 :: r.1, r.2)
    else
      let r := crossAdjGo g u pc n b rest k (m + 1)
      (a :: r.1, r.2)

/-- The adjacent-pair crossover pass, entered at the first non-elite
individual. -/
def crossAdj (g : ℕ → ℕ) (u : ℕ → UnitIco) (pc : ℚ) (n : ℕ) :
    List (List ℕ) → ℕ → ℕ → List (List ℕ) × ℕ × ℕ
  | [], k, m => ([], k, m)
  | a :: rest, k, m => crossAdjGo g u pc n a rest k m

/-- The wrap-around crossover: if the non-elite slice has at least two
individuals, with probability `crossover_probability` exchange a random prefix
between its first and last individuals. -/
def crossWrap (g : ℕ → ℕ) (u : ℕ → UnitIco) (pc : ℚ) (n : ℕ)
    (nonElite : List (List ℕ)) (k m : ℕ) : List (List ℕ) × ℕ × ℕ :=
  if 2 ≤ nonElite.length then
    if ((u m : ℚ)) < pc then
      let split := g k % n
      let a := nonElite.getD 0 []
      let b := nonElite.getD (nonElite.length - 1) []
      let ab := crossPrefix a b split
      ((nonElite.set 0 ab.1).set (nonElite.length - 1) ab.2, k + 1, m + 1)
    else (nonElite, k, m + 1)
  else (nonElite, k, m)

/-- The mutation pass over the non-elite slice. -/
def mutateAll (g : ℕ → ℕ) (u : ℕ → UnitIco) (pm : ℚ) (pf n : ℕ) :
    List (List ℕ) → ℕ → ℕ → Option (List (List ℕ) × ℕ × ℕ)
  | [], k, m => some ([], k, m)
  | st :: rest, k, m =>
    match maybe_mutate g u pm pf n st k m with
    | none => none
    | some (st', k', m') =>
      (mutateAll g u pm pf n rest k' m').map fun r => (st' :: r.1, r.2)

/-- One generation of `GeneticAlgorithm::solve_with_callback`'s `while` body:
sort, scan (with early return), elite copy, fitness-proportional selection,
adjacent and wrap-around crossover, mutation. -/
def gaGeneration (g : ℕ → ℕ) (u : ℕ → UnitIco) (cfg : GAConfig) (pf n : ℕ)
    (gen : List (List ℕ)) (k m : ℕ) (tr : Trace) :
    Option ((List ℕ × Trace) ⊕ (List (List ℕ) × ℕ × ℕ × Trace)) :=
  let sorted := sortByScore gen
  match gaScan sorted true 0 [] tr with
  | (tr', some st, _, _) => some (Sum.inl (st, tr'))
  | (tr', none, maxS, scores) =>
    let totalInv := (scores.map fun sc => maxS - sc).sum
    let perEach := 1 / (gen.length : ℚ)
    match eliteLoop cfg.elitism perEach sorted 0 with
    | none => none
    | some elite =>
      match selLoop sorted scores maxS totalInv perEach u
          (cfg.generation_size - elite.length) m with
      | none => none
      | some (selected, m1) =>
        let adj := crossAdj g u cfg.crossover_probability n selected k m1
        let wrap := crossWrap g u cfg.crossover_probability n adj.1 adj.2.1 adj.2.2
        match mutateAll g u cfg.mutation_probability pf n wrap.1 wrap.2.1 wrap.2.2 with
        | none => none
        | some (mutated, k2, m2) => some (Sum.inr (elite ++ mutated, k2, m2, tr'))

/-- The `while pending_generations > 0` loop, followed by the final
sort-and-take-best. -/
def gaLoop (g : ℕ → ℕ) (u : ℕ → UnitIco) (cfg : GAConfig) (pf n : ℕ) :
    ℕ → List (List ℕ) → ℕ → ℕ → Trace → Option (List ℕ × ℕ × Trace)
  | 0, gen, _, _, tr =>
    match (sortByScore gen).head? with
    | none => none
    | some best => some (best, score best, tr)
  | pending + 1, gen, k, m, tr =>
    match gaGeneration g u cfg pf n gen k m tr with
    | none => none
    | some (Sum.inl (st, tr')) => some (st, 0, tr')
    | some (Sum.inr (gen', k', m', tr')) => gaLoop g u cfg pf n pending gen' k' m' tr'

/-- `GeneticAlgorithm::solve_with_callback`. -/
def gaSolve (g : ℕ → ℕ) (u : ℕ → UnitIco) (cfg : GAConfig) (pf n : ℕ) :
    Option (List ℕ × ℕ × Trace) :=
  if cfg.generation_size = 0 then some ([], 0, [])
  else gaLoop g u cfg pf n cfg.generation_count (initStates g n cfg.generation_size 0)
    (cfg.generation_size * n) 0 []

/-- Swapping two in-bounds columns (or swapping inside the empty board)
preserves being a permutation of `0..n-1`. -/
theorem IsPermOf_swapL_pick (l : List ℕ) (n i j : ℕ) (h : IsPermOf l n)
    (hb : 0 < l.length → i < l.length ∧ j < l.length) : IsPermOf (swapL l i j) n := by
  cases l with
  | nil => simpa [swapL] using h
  | cons a t =>
    obtain ⟨hi, hj⟩ := hb (by simp)
    exact (swapL_perm _ i j hi hj).trans h

/-- Every state of a terminating hill-climbing loop stays a permutation, and so
does everything it appends to the trace. -/
theorem hcLoop_perm (g : ℕ → ℕ) (pf n : ℕ) :
    ∀ (fuel : ℕ) (rows : List ℕ) (cur iters k : ℕ) (tr : Trace) (out : List ℕ × ℕ × Trace),
      hcLoop g pf fuel rows cur iters k tr = some out →
      IsPermOf rows n → (∀ e ∈ tr, IsPermOf e.1 n) →
      IsPermOf out.1 n ∧ ∀ e ∈ out.2.2, IsPermOf e.1 n := by
  intro fuel
  induction fuel with
  | zero =>
    intro rows cur iters k tr out h
    exact absurd h (by rw [hcLoop]; simp)
  | succ fuel ih =>
    intro rows cur iters k tr out h hrows htr
    rw [hcLoop] at h
    by_cases hg : cur ≠ 0 ∧ iters ≤ 1000
    · rw [if_pos hg] at h
      cases hq : get_two_random_queens g rows.length k pf with
      | none => rw [hq] at h; exact absurd h (by simp)
      | some t => ?_
      rw [hq] at h
      obtain ⟨q1, q2, k'⟩ := t
      dsimp only at h
      have hb := (get_two_random_queens_spec g rows.length k pf q1 q2 k' hq).2
      have hrows' : IsPermOf (swapL rows q1 q2) n := IsPermOf_swapL_pick rows n q1 q2 hrows hb
      by_cases hs : score (swapL rows q1 q2) < cur
      · rw [if_pos hs] at h
        refine ih _ _ _ _ _ _ h hrows' ?_
        intro e he
        rcases List.mem_append.1 he with he | he
        · exact htr e he
        · rw [List.mem_singleton.1 he]
          exact hrows'
      · rw [if_neg hs] at h
        refine ih _ _ _ _ _ _ h ?_ htr
        refine IsPermOf_swapL_pick _ n q1 q2 hrows' ?_
        rw [length_swapL]
        exact hb
    · rw [if_neg hg] at h
      cases h
      exact ⟨hrows, htr⟩

/-- The same permutation invariant for the simulated-annealing loop. -/
theorem saLoop_perm (g : ℕ → ℕ) (u : ℕ → UnitIco) (cf : ℚ) (pf n : ℕ) :
    ∀ (fuel : ℕ) (rows : List ℕ) (cur : ℕ) (temp : ℚ) (iters k m : ℕ) (tr : Trace)
      (out : SAOut),
      saLoop g u cf pf fuel rows cur temp iters k m tr = some out →
      IsPermOf rows n → (∀ e ∈ tr, IsPermOf e.1 n) →
      IsPermOf out.rows n ∧ ∀ e ∈ out.tr, IsPermOf e.1 n := by
  intro fuel
  induction fuel with
  | zero =>
    intro rows cur temp iters k m tr out h
    exact absurd h (by rw [saLoop]; simp)
  | succ fuel ih =>
    intro rows cur temp iters k m tr out h hrows htr
    rw [saLoop] at h
    by_cases hg : cur ≠ 0 ∧ (1 ≤ temp ∨ iters ≤ 1000)
    · rw [if_pos hg] at h
      cases hq : get_two_random_queens g rows.length k pf with
      | none => rw [hq] at h; exact absurd h (by simp)
      | some t => ?_
      rw [hq] at h
      obtain ⟨q1, q2, k'⟩ := t
      dsimp only at h
      have hb := (get_two_random_queens_spec g rows.length k pf q1 q2 k' hq).2
      have hrows' : IsPermOf (swapL rows q1 q2) n := IsPermOf_swapL_pick rows n q1 q2 hrows hb
      have htr' : ∀ e ∈ tr ++ [(swapL rows q1 q2, score (swapL rows q1 q2))],
          IsPermOf e.1 n := by
        intro e he
        rcases List.mem_append.1 he with he | he
        · exact htr e he
        · rw [List.mem_singleton.1 he]
          exact hrows'
      by_cases hs : score (swapL rows q1 q2) < cur
      · rw [if_pos hs] at h
        exact ih _ _ _ _ _ _ _ _ h hrows' htr'
      · rw [if_neg hs] at h
        by_cases hacc : (should_accept temp cur (score (swapL rows q1 q2)) u m).1 = true
        · rw [if_pos hacc] at h
          exact ih _ _ _ _ _ _ _ _ h hrows' htr'
        · rw [if_neg hacc] at h
          refine ih _ _ _ _ _ _ _ _ h ?_ htr
          refine IsPermOf_swapL_pick _ n q1 q2 hrows' ?_
          rw [length_swapL]
          exact hb
    · rw [if_neg hg] at h
      cases h
      exact ⟨hrows, htr⟩

theorem insertByScore_perm (x : List ℕ) : ∀ (l : List (List ℕ)),
    (insertByScore x l).Perm (x :: l)
  | [] => List.Perm.refl _
  | y :: ys => by
    rw [insertByScore]
    split
    · exact ((insertByScore_perm x ys).cons y).trans (List.Perm.swap x y ys)
    · exact List.Perm.refl _

theorem sortByScore_perm : ∀ (l : List (List ℕ)), (sortByScore l).Perm l
  | [] => List.Perm.refl _
  | x :: xs => (insertByScore_perm x (sortByScore xs)).trans ((sortByScore_perm xs).cons x)

theorem sortByScore_length (l : List (List ℕ)) : (sortByScore l).length = l.length :=
  (sortByScore_perm l).length_eq

/-- The beam-search scan only reports and returns member states. -/
theorem lbsScan_spec (n : ℕ) : ∀ (states : List (List ℕ)) (isFirst : Bool) (tr : Trace),
    (∀ st ∈ states, IsPermOf st n) → (∀ e ∈ tr, IsPermOf e.1 n) →
    (∀ e ∈ (lbsScan states isFirst tr).1, IsPermOf e.1 n)
    ∧ ∀ st, (lbsScan states isFirst tr).2 = some st → IsPermOf st n
  | [], _, tr, _, htr => ⟨htr, by intro st h; exact absurd h (by rw [lbsScan]; simp)⟩
  | st :: rest, isFirst, tr, hst, htr => by
    rw [lbsScan]
    have hst0 : IsPermOf st n := hst st (by simp)
    have htr' : ∀ e ∈ (if isFirst = true ∨ score st = 0
        then tr ++ [(st, score st)] else tr), IsPermOf e.1 n := by
      split
      · intro e he
        rcases List.mem_append.1 he with he | he
        · exact htr e he
        · rw [List.mem_singleton.1 he]
          exact hst0
      · exact htr
    by_cases hz : score st = 0
    · rw [if_pos hz]
      refine ⟨htr', ?_⟩
      intro st' h
      cases h
      exact hst0
    · rw [if_neg hz]
      exact lbsScan_spec n rest false _ (fun s hs => hst s (by simp [hs])) htr'

/-- Every successor is a swap of two in-range columns of a member state. -/
theorem lbsSuccessors_perm (n : ℕ) (states : List (List ℕ))
    (h : ∀ st ∈ states, IsPermOf st n) :
    ∀ st' ∈ lbsSuccessors n states, IsPermOf st' n := by
  intro st' hmem
  unfold lbsSuccessors at hmem
  rw [List.mem_bind] at hmem
  obtain ⟨st, hst, hmem⟩ := hmem
  rw [List.mem_bind] at hmem
  obtain ⟨i, hi, hmem⟩ := hmem
  rw [List.mem_map] at hmem
  obtain ⟨j, hj, rfl⟩ := hmem
  rw [List.mem_range] at hi
  rw [List.mem_range'] at hj
  have hp := h st hst
  have hlen : st.length = n := by simpa using hp.length_eq
  refine IsPermOf_swapL_pick st n i j hp fun _ => ⟨?_, ?_⟩ <;> omega

theorem initStates_perm (g : ℕ → ℕ) (n : ℕ) : ∀ (c k : ℕ),
    ∀ st ∈ initStates g n c k, IsPermOf st n
  | 0, _ => by intro st h; exact absurd h (by rw [initStates]; simp)
  | c + 1, k => by
    intro st h
    rw [initStates] at h
    rcases List.mem_cons.1 h with rfl | h
    · exact randPerm_isPermOf n g k
    · exact initStates_perm g n c (k + n) st h

/-- The beam-search loop's permutation invariant. -/
theorem lbsLoop_perm (n cnt : ℕ) : ∀ (fuel : ℕ) (states : List (List ℕ)) (tr : Trace)
    (out : List ℕ × ℕ × Trace),
    lbsLoop n cnt fuel states tr = some out →
    (∀ st ∈ states, IsPermOf st n) → (∀ e ∈ tr, IsPermOf e.1 n) →
    IsPermOf out.1 n ∧ ∀ e ∈ out.2.2, IsPermOf e.1 n := by
  intro fuel
  induction fuel with
  | zero =>
    intro states tr out h
    exact absurd h (by rw [lbsLoop]; simp)
  | succ fuel ih =>
    intro states tr out h hstates htr
    rw [lbsLoop] at h
    have hscan := lbsScan_spec n states true tr hstates htr
    cases hq : (lbsScan states true tr).2 with
    | some st =>
      have : lbsScan states true tr = ((lbsScan states true tr).1, some st) := by
        rw [← hq]
      rw [this] at h
      cases h
      exact ⟨hscan.2 st hq, hscan.1⟩
    | none =>
      have : lbsScan states true tr = ((lbsScan states true tr).1, none) := by
        rw [← hq]
      rw [this] at h
      refine ih _ _ _ h ?_ hscan.1
      intro st hst
      have hst' : st ∈ sortByScore (lbsSuccessors n states) :=
        List.mem_of_mem_take hst
      exact lbsSuccessors_perm n states hstates st
        ((sortByScore_perm (lbsSuccessors n states)).mem_iff.1 hst')

/-- C5 (amended): in hill climbing, simulated annealing and local beam search,
every assignment a terminating run produces — the returned one and every one
passed to the callback — is a length-`n` permutation of `0..n-1`.  (The
genetic algorithm violates this: see the counterexample.) -/
theorem local_search_states_are_permutations :
    (∀ (g : ℕ → ℕ) (n pf fuel : ℕ) (out : List ℕ × ℕ × Trace),
       hcSolve g n pf fuel = some out →
       IsPermOf out.1 n ∧ ∀ e ∈ out.2.2, IsPermOf e.1 n)
    ∧ (∀ (g : ℕ → ℕ) (u : ℕ → UnitIco) (t0 cf : ℚ) (n pf fuel : ℕ) (out : SAOut),
       saSolve g u t0 cf n pf fuel = some out →
       IsPermOf out.rows n ∧ ∀ e ∈ out.tr, IsPermOf e.1 n)
    ∧ (∀ (g : ℕ → ℕ) (n cnt fuel : ℕ) (out : List ℕ × ℕ × Trace),
       lbsSolve g n cnt fuel = some out →
       IsPermOf out.1 n ∧ ∀ e ∈ out.2.2, IsPermOf e.1 n) := by
  refine ⟨?_, ?_, ?_⟩
  · intro g n pf fuel out h
    unfold hcSolve at h
    refine hcLoop_perm g pf n fuel _ _ _ _ _ out h (randPerm_isPermOf n g 0) ?_
    intro e he
    rw [List.mem_singleton.1 he]
    exact randPerm_isPermOf n g 0
  · intro g u t0 cf n pf fuel out h
    unfold saSolve at h
    refine saLoop_perm g u cf pf n fuel _ _ _ _ _ _ _ out h (randPerm_isPermOf n g 0) ?_
    intro e he
    rw [List.mem_singleton.1 he]
    exact randPerm_isPermOf n g 0
  · intro g n cnt fuel out h
    unfold lbsSolve at h
    exact lbsLoop_perm n cnt fuel _ _ out h (initStates_perm g n cnt 0) (by simp)

/-- Witness for C5's amended theorem on three concrete terminating runs. -/
theorem local_search_states_are_permutations_witness :
    IsPermOf [0] 1 ∧ IsPermOf [0] 1 ∧ IsPermOf [] 0 :=
  ⟨(local_search_states_are_permutations.1 gId 1 1 1 ([0], 0, [([0], 0)]) (by decide)).1,
   (local_search_states_are_permutations.2.1 gId uZero 5 (1 / 2) 1 1 1
      ⟨[0], 0, 5, 0, [([0], 0)]⟩ (by decide)).1,
   (local_search_states_are_permutations.2.2 gId 0 1 1 ([], 0, [([], 0)]) (by decide)).1⟩

/-- Concrete `next_u32` stream for the genetic counterexample: initial
population `[[0,1],[1,0]]`, adjacent-crossover split 1, wrap split 0. -/
def gGA : ℕ → ℕ := fun k => [1, 0, 0, 0, 1, 0].getD k 0

/-- Concrete `next_f32` stream for the genetic counterexample: the two
selection draws pick individuals 1 then 0; everything else draws 0. -/
def uGA : ℕ → UnitIco := fun m => if m = 1 then ⟨1 / 2, by norm_num⟩ else ⟨0, by norm_num⟩

unseal Rat.mul Rat.sub Rat.add Rat.inv in
/-- C5 counterexample: a genetic run (n = 2, generationSize 2, elitism 0,
crossoverProbability 1, mutationProbability 0, one generation) whose adjacent
crossover exchanges a one-column prefix between `[1,0]` and `[0,1]`, producing
`[0,0]` and `[1,1]` — and returns `[0,0]`, which is not a permutation of
`0..1`. -/
theorem ga_crossover_breaks_permutation :
    gaSolve gGA uGA ⟨2, 0, 1, 0, 1⟩ 1 2 = some ([0, 0], 1, [([0, 1], 1)])
    ∧ ¬ IsPermOf [0, 0] 2 := by
  constructor
  · decide
  · intro h
    have := h.count_eq 1
    simp [List.count_cons, List.range_succ] at this

theorem list_sum_div (l : List ℚ) (c : ℚ) : (l.map fun x => x / c).sum = l.sum / c := by
  induction l with
  | nil => simp
  | cons a t ih => simp [ih, add_div]

/-- If the selection scan falls off the end of the list, the draw was at least
the whole accumulated probability mass. -/
theorem selScan_none_ge (maxS totalInv : ℕ) (perEach p : ℚ) :
    ∀ (l : List (ℕ × ℕ)) (previous : ℚ), previous ≤ p →
      selScan maxS totalInv perEach p l previous = none →
      previous + (l.map fun x => if totalInv = 0 then perEach
        else ((maxS - x.2 : ℕ) : ℚ) / (totalInv : ℚ)).sum ≤ p
  | [], previous, hprev, _ => by simpa using hprev
  | (i, sc) :: rest, previous, hprev, h => by
    rw [selScan] at h
    by_cases hlt : p < (if totalInv = 0 then previous + perEach
        else previous + ((maxS - sc : ℕ) : ℚ) / (totalInv : ℚ))
    · rw [if_pos hlt] at h
      cases h
    · rw [if_neg hlt] at h
      have hrec := selScan_none_ge maxS totalInv perEach p rest _ (not_lt.1 hlt) h
      rw [List.map_cons, List.sum_cons]
      by_cases hT : totalInv = 0
      · simp only [hT, if_pos] at hrec ⊢
        simp at hrec ⊢
        linarith
      · simp only [if_neg hT] at hrec ⊢
        linarith

/-- The total selection mass over the whole (reversed, enumerated) score list
is exactly 1, in both the uniform and the fitness-proportional branch. -/
theorem selScan_mass (scores : List ℕ) (maxS : ℕ) (hne : scores ≠ []) :
    ((scores.enum.reverse).map fun x =>
      if (scores.map fun sc => maxS - sc).sum = 0 then 1 / (scores.length : ℚ)
      else ((maxS - x.2 : ℕ) : ℚ) / (((scores.map fun sc => maxS - sc).sum : ℕ) : ℚ)).sum
    = 1 := by
  have hlen : (scores.length : ℚ) ≠ 0 := by
    simp only [ne_eq, Nat.cast_eq_zero, List.length_eq_zero]
    exact hne
  rw [List.map_reverse, List.sum_reverse]
  by_cases hT : (scores.map fun sc => maxS - sc).sum = 0
  · simp only [if_pos hT]
    have : (fun _x : ℕ × ℕ => 1 / (scores.length : ℚ))
        = Function.const (ℕ × ℕ) (1 / (scores.length : ℚ)) := rfl
    rw [this, List.map_const, List.sum_replicate, List.enum_length, nsmul_eq_mul]
    field_simp
  · simp only [if_neg hT]
    have hmap : (scores.enum.map fun x =>
        ((maxS - x.2 : ℕ) : ℚ) / (((scores.map fun sc => maxS - sc).sum : ℕ) : ℚ))
        = scores.map fun sc =>
            ((maxS - sc : ℕ) : ℚ) / (((scores.map fun sc' => maxS - sc').sum : ℕ) : ℚ) := by
      have h1 : (fun x : ℕ × ℕ =>
          ((maxS - x.2 : ℕ) : ℚ) / (((scores.map fun sc => maxS - sc).sum : ℕ) : ℚ))
          = (fun sc : ℕ =>
              ((maxS - sc : ℕ) : ℚ) / (((scores.map fun sc' => maxS - sc').sum : ℕ) : ℚ))
            ∘ Prod.snd := rfl
      rw [h1, List.comp_map, List.enum_map_snd]
    rw [hmap]
    have h2 : (scores.map fun sc =>
        ((maxS - sc : ℕ) : ℚ) / (((scores.map fun sc' => maxS - sc').sum : ℕ) : ℚ)).sum
        = (scores.map fun sc => ((maxS - sc : ℕ) : ℚ)).sum
          / (((scores.map fun sc' => maxS - sc').sum : ℕ) : ℚ) := by
      rw [← list_sum_div, List.map_map]
      rfl
    rw [h2]
    have h3 : (scores.map fun sc => ((maxS - sc : ℕ) : ℚ)).sum
        = (((scores.map fun sc' => maxS - sc').sum : ℕ) : ℚ) := by
      rw [Nat.cast_list_sum, List.map_map]
      rfl
    rw [h3]
    exact div_self (Nat.cast_ne_zero.2 hT)

/-- C10: whenever the population is nonempty and the draw is in `[0,1)`, the
fitness-proportional scan always chooses an individual — the
`assert!(chosen_one)` can never fire (`selScan` is the scan, applied exactly
as at its call site: over `scores.enum.reverse`, with weight
`(maxScore - score)/totalInverse`, or uniform `1/len` when `totalInverse`
is 0). -/
theorem ga_selection_always_chooses (scores : List ℕ) (maxS : ℕ) (p : ℚ)
    (hne : scores ≠ []) (hp0 : 0 ≤ p) (hp1 : p < 1) :
    (selScan maxS ((scores.map fun sc => maxS - sc).sum)
      (1 / (scores.length : ℚ)) p scores.enum.reverse 0).isSome = true := by
  by_contra hnone
  rw [Option.not_isSome_iff_eq_none] at hnone
  have := selScan_none_ge maxS ((scores.map fun sc => maxS - sc).sum)
    (1 / (scores.length : ℚ)) p scores.enum.reverse 0 hp0 hnone
  rw [selScan_mass scores maxS hne] at this
  linarith

/-- Witness for C10 at a concrete population. -/
theorem ga_selection_always_chooses_witness :
    (selScan 1 (([1, 1].map fun sc => 1 - sc).sum)
      (1 / (([1, 1] : List ℕ).length : ℚ)) (1 / 2) ([1, 1] : List ℕ).enum.reverse 0).isSome
    = true :=
  ga_selection_always_chooses [1, 1] 1 (1 / 2) (by simp) (by norm_num) (by norm_num)

/-- With `elitism = 1`, the elite loop copies the whole population: after `j`
pushes the accumulated share is `j/len < 1` until the population is exhausted,
where it reaches exactly 1. -/
theorem eliteLoop_all (perEach : ℚ) (hpos : 0 < perEach) :
    ∀ (rest : List (List ℕ)) (soFar : ℚ), soFar + rest.length * perEach = 1 →
      eliteLoop 1 perEach rest soFar = some rest
  | [], soFar, h => by
    have hs : soFar = 1 := by simpa using h
    rw [eliteLoop, if_neg (by rw [hs]; exact lt_irrefl 1)]
  | st :: rest, soFar, h => by
    rw [List.length_cons] at h
    push_cast at h
    have hlt : soFar < 1 := by nlinarith [hpos, Nat.cast_nonneg (α := ℚ) rest.length]
    rw [eliteLoop, if_pos hlt,
      eliteLoop_all perEach hpos rest (soFar + perEach) (by linarith)]
    rfl

/-- When no individual has score 0, the generation scan does not early-return. -/
theorem gaScan_none : ∀ (l : List (List ℕ)) (isFirst : Bool) (maxS : ℕ) (scores : List ℕ)
    (tr : Trace), (∀ st ∈ l, score st ≠ 0) →
    ∃ tr' maxS' scores', gaScan l isFirst maxS scores tr = (tr', none, maxS', scores')
  | [], _, maxS, scores, tr, _ => ⟨tr, maxS, scores, rfl⟩
  | st :: rest, isFirst, maxS, scores, tr, h => by
    have hz : score st ≠ 0 := h st (by simp)
    simp only [gaScan]
    rw [if_neg hz]
    exact gaScan_none rest false _ _ _ fun s hs => h s (by simp [hs])

/-- C9: with `elitism = 1.0`, a generation step that does not early-return on a
zero-score individual produces exactly the score-sorted current generation:
the whole population is copied as the elite slice, no selection happens, and
no crossover or mutation is applied — the random cursors `k` and `m` are
returned unchanged, i.e. no randomness is consumed. -/
theorem ga_elitism_one_next_equals_sorted (g : ℕ → ℕ) (u : ℕ → UnitIco) (cfg : GAConfig)
    (pf n : ℕ) (gen : List (List ℕ)) (k m : ℕ) (tr : Trace)
    (helit : cfg.elitism = 1) (hlen : gen.length = cfg.generation_size)
    (hpos : 0 < cfg.generation_size) (hnozero : ∀ st ∈ gen, score st ≠ 0) :
    ∃ tr', gaGeneration g u cfg pf n gen k m tr
      = some (Sum.inr (sortByScore gen, k, m, tr')) := by
  simp only [gaGeneration]
  have hsortz : ∀ st ∈ sortByScore gen, score st ≠ 0 := fun st hst =>
    hnozero st ((sortByScore_perm gen).subset hst)
  obtain ⟨tr', maxS', scores', hscan⟩ := gaScan_none (sortByScore gen) true 0 [] tr hsortz
  rw [hscan]
  dsimp only
  have hlen0 : (0 : ℚ) < (gen.length : ℚ) := by
    have : 0 < gen.length := by omega
    exact_mod_cast this
  have helite : eliteLoop cfg.elitism (1 / (gen.length : ℚ)) (sortByScore gen) 0
      = some (sortByScore gen) := by
    rw [helit]
    refine eliteLoop_all _ (by positivity) _ 0 ?_
    rw [sortByScore_length]
    field_simp
  rw [helite]
  dsimp only
  have hslots : cfg.generation_size - (sortByScore gen).length = 0 := by
    rw [sortByScore_length, hlen]
    omega
  rw [hslots]
  exact ⟨tr', by simp [selLoop, crossAdj, crossWrap, mutateAll]⟩

/-- Witness for C9 on a concrete population. -/
theorem ga_elitism_one_next_equals_sorted_witness :
    ∃ tr', gaGeneration gId uZero ⟨2, 1, 1, 1, 5⟩ 1 2 [[0, 1], [1, 0]] 0 0 []
      = some (Sum.inr (sortByScore [[0, 1], [1, 0]], 0, 0, tr')) :=
  ga_elitism_one_next_equals_sorted gId uZero ⟨2, 1, 1, 1, 5⟩ 1 2 [[0, 1], [1, 0]] 0 0 []
    rfl rfl (by norm_num) (by decide)

/-- `ConstraintPropagation::position_next_queen_from_row`: scan rows upward
from `row` for one that is safe against of all placed queens.  The structural
bound `b` stands for the `while row < n` loop; `b = n` is always enough, since
the loop runs at most `n - row ≤ n` times. -/
def position_next_queen_from_row (n : ℕ) (qs : List ℕ) : ℕ → ℕ → Option ℕ
  | 0, _ => none
  | b + 1, row =>
    if row < n then
      if queen_can_be_positioned_at qs (qs.length, row) then some row
      else position_next_queen_from_row n qs b (row + 1)
    else none

/-- `ConstraintPropagation::solve_with_callback`'s `while` loop: push the
first safe row at or above the cursor and reset the cursor, or pop and resume
above the popped row; stop when the board is full or the stack underflows. -/
def cpLoop (n : ℕ) : ℕ → List ℕ → ℕ → Trace → Option (List ℕ × ℕ × Trace)
  | 0, _, _, _ => none
  | fuel + 1, qs, start, tr =>
    if qs.length ≠ n then
      match position_next_queen_from_row n qs n start with
      | some pos => cpLoop n fuel (qs ++ [pos]) 0 (tr ++ [(qs ++ [pos], 0)])
      | none =>
        match qs.getLast? with
        | some row => cpLoop n fuel qs.dropLast (row + 1) (tr ++ [(qs.dropLast, 0)])
        | none => some (qs, score qs, tr)
    else some (qs, score qs, tr)

/-- `ConstraintPropagation::solve_with_callback`. -/
def cpSolve (n fuel : ℕ) : Option (List ℕ × ℕ × Trace) :=
  cpLoop n fuel [] 0 []

theorem initStates_zero (g : ℕ → ℕ) : ∀ c k, initStates g 0 c k = List.replicate c []
  | 0, _ => rfl
  | c + 1, k => by
    rw [initStates, initStates_zero g c (k + 0), List.replicate_succ]
    rfl

theorem sortByScore_replicate_nil :
    ∀ m, sortByScore (List.replicate m ([] : List ℕ)) = List.replicate m [] := by
  intro m
  induction m with
  | zero => rfl
  | succ m ih =>
    rw [List.replicate_succ, sortByScore, ih]
    cases m with
    | zero => rfl
    | succ m => rw [List.replicate_succ, insertByScore, if_neg (lt_irrefl _)]

/-- A lonely empty-board helper: `lbsLoop` with no states loops forever. -/
theorem lbsLoop_no_states (n : ℕ) : ∀ (fuel : ℕ) (tr : Trace),
    lbsLoop n 0 fuel [] tr = none
  | 0, _ => rfl
  | fuel + 1, tr => by
    rw [lbsLoop]
    exact lbsLoop_no_states n fuel tr

/-- C4 counterexample: local beam search with `state_count = 0` never returns:
each round finds no zero-score state among zero states and proceeds to the
next round with zero states — for no amount of fuel does the loop produce a
`Solution`, at `N = 0` (or any `N`). -/
theorem lbs_zero_states_never_returns :
    ¬ ∃ (fuel : ℕ) (out : List ℕ × ℕ × Trace), lbsSolve gId 0 0 fuel = some out := by
  rintro ⟨fuel, out, h⟩
  rw [lbsSolve] at h
  rw [show initStates gId 0 0 0 = [] from rfl, lbsLoop_no_states 0 fuel []] at h
  cases h

/-- C4 (amended): with the sole exception of local beam search with
`state_count = 0` — whose loop never returns (see the counterexample) — every
algorithm solves size 0 immediately with the empty assignment and score 0, and
the genetic algorithm does the same for `generation_size = 0` at every size. -/
theorem empty_board_returns_empty_solution :
    (∀ fuel : ℕ, cpSolve 0 (fuel + 1) = some ([], 0, []))
    ∧ (∀ (g : ℕ → ℕ) (pf fuel : ℕ), hcSolve g 0 pf (fuel + 1) = some ([], 0, [([], 0)]))
    ∧ (∀ (g : ℕ → ℕ) (u : ℕ → UnitIco) (t0 cf : ℚ) (pf fuel : ℕ),
        saSolve g u t0 cf 0 pf (fuel + 1) = some ⟨[], 0, t0, 0, [([], 0)]⟩)
    ∧ (∀ (g : ℕ → ℕ) (cnt fuel : ℕ),
        lbsSolve g 0 (cnt + 1) (fuel + 1) = some ([], 0, [([], 0)]))
    ∧ (∀ (g : ℕ → ℕ) (u : ℕ → UnitIco) (cfg : GAConfig) (pf : ℕ),
        ∃ tr, gaSolve g u cfg pf 0 = some ([], 0, tr))
    ∧ (∀ (g : ℕ → ℕ) (u : ℕ → UnitIco) (cfg : GAConfig) (pf n : ℕ),
        cfg.generation_size = 0 → gaSolve g u cfg pf n = some ([], 0, [])) := by
  refine ⟨?_, ?_, ?_, ?_, ?_, ?_⟩
  · intro fuel
    rw [cpSolve, cpLoop, if_neg (by simp)]
    rfl
  · intro g pf fuel
    simp only [hcSolve, show randPerm 0 g 0 = [] from rfl,
      show score ([] : List ℕ) = 0 from rfl]
    rw [hcLoop, if_neg (by simp)]
  · intro g u t0 cf pf fuel
    simp only [saSolve, show randPerm 0 g 0 = [] from rfl,
      show score ([] : List ℕ) = 0 from rfl]
    rw [saLoop, if_neg (by simp)]
  · intro g cnt fuel
    rw [lbsSolve, initStates_zero, List.replicate_succ, lbsLoop,
      show lbsScan ([] :: List.replicate cnt ([] : List ℕ)) true [] = ([([], 0)], some [])
        from rfl]
  · intro g u cfg pf
    by_cases hgs : cfg.generation_size = 0
    · exact ⟨[], by rw [gaSolve, if_pos hgs]⟩
    · obtain ⟨c, hc⟩ : ∃ c, cfg.generation_size = c + 1 := ⟨cfg.generation_size - 1, by omega⟩
      rw [gaSolve, if_neg hgs, initStates_zero]
      cases hgc : cfg.generation_count with
      | zero =>
        refine ⟨[], ?_⟩
        rw [gaLoop, sortByScore_replicate_nil, hc, List.replicate_succ]
        rfl
      | succ p =>
        refine ⟨[([], 0)], ?_⟩
        rw [gaLoop]
        simp only [gaGeneration]
        rw [sortByScore_replicate_nil, hc, List.replicate_succ,
          show gaScan ([] :: List.replicate c ([] : List ℕ)) true 0 [] []
            = ([([], 0)], some [], 0, []) from rfl]
  · intro g u cfg pf n h
    rw [gaSolve, if_pos h]

/-- Witness for C4 at concrete inputs (including the genetic
`generation_size = 0` guard). -/
theorem empty_board_returns_empty_solution_witness :
    cpSolve 0 1 = some ([], 0, [])
    ∧ gaSolve gId uZero ⟨0, 1, 1, 1, 5⟩ 1 7 = some ([], 0, []) :=
  ⟨empty_board_returns_empty_solution.1 0,
   empty_board_returns_empty_solution.2.2.2.2.2 gId uZero ⟨0, 1, 1, 1, 5⟩ 1 7 rfl⟩

/-- A partial assignment is safe when no two placed queens attack each other. -/
def Safe (l : List ℕ) : Prop :=
  ∀ i j, i < j → j < l.length → ¬ attacksSpec i (l.getD i 0) j (l.getD j 0)

/-- A complete solution of the `n`-queens problem. -/
def Sol (n : ℕ) (c : List ℕ) : Prop :=
  c.length = n ∧ (∀ x ∈ c, x < n) ∧ Safe c

theorem natAbs_sub_comm (a b : ℤ) : (a - b).natAbs = (b - a).natAbs := by
  rw [← neg_sub, Int.natAbs_neg]

/-- `can_position` with distinct columns, in the argument order that
`queen_can_be_positioned_at` uses. -/
theorem can_position_isErr_iff (x y i ri : ℕ) (hne : x ≠ i) :
    isErrE (can_position (x, y) (i, ri)) = true ↔ attacksSpec i ri x y := by
  unfold can_position attacksSpec
  dsimp only
  rw [if_neg (fun hh => hne hh.1), if_neg hne]
  by_cases hr : y = ri
  · rw [if_pos hr]
    exact ⟨fun _ => Or.inl hr.symm, fun _ => rfl⟩
  · rw [if_neg hr]
    by_cases hd : ((x : ℤ) - (i : ℤ)).natAbs = ((y : ℤ) - (ri : ℤ)).natAbs
    · rw [if_pos hd]
      refine ⟨fun _ => Or.inr ?_, fun _ => rfl⟩
      rw [natAbs_sub_comm ((i : ℤ)) ((x : ℤ)), natAbs_sub_comm ((ri : ℤ)) ((y : ℤ))]
      exact hd
    · rw [if_neg hd]
      constructor
      · intro hfalse
        exact absurd hfalse (by simp [isErrE])
      · rintro (hh | hh)
        · exact absurd hh.symm hr
        · exfalso
          apply hd
          rw [natAbs_sub_comm ((x : ℤ)) ((i : ℤ)), natAbs_sub_comm ((y : ℤ)) ((ri : ℤ))]
          exact hh

/-- `queen_can_be_positioned_at` for the next column says exactly: the new row
attacks none of the placed queens. -/
theorem okPos_iff (qs : List ℕ) (y : ℕ) :
    queen_can_be_positioned_at qs (qs.length, y) = true ↔
      ∀ i, i < qs.length → ¬ attacksSpec i (qs.getD i 0) qs.length y := by
  unfold queen_can_be_positioned_at
  rw [List.all_eq_true]
  constructor
  · intro h i hi
    have hmem : (i, qs.getD i 0) ∈ qs.enum := by
      rw [List.mk_mem_enum_iff_getElem?, List.getElem?_eq_getElem hi,
        List.getD_eq_getElem _ _ hi]
    have hx := h _ hmem
    rw [Bool.not_eq_true'] at hx
    intro hatt
    rw [(can_position_isErr_iff qs.length y i (qs.getD i 0) (by omega)).2 hatt] at hx
    cases hx
  · intro h xy hmem
    rw [List.mem_enum_iff_getElem?] at hmem
    have hi : xy.1 < qs.length := by
      by_contra hge
      rw [List.getElem?_eq_none (by omega)] at hmem
      cases hmem
    rw [List.getElem?_eq_getElem hi] at hmem
    have hval : qs.getD xy.1 0 = xy.2 := by
      rw [List.getD_eq_getElem _ _ hi]
      exact Option.some_inj.1 hmem
    rw [Bool.not_eq_true']
    rw [show xy = (xy.1, xy.2) from rfl]
    by_contra hne
    rw [Bool.not_eq_false] at hne
    exact h xy.1 hi (hval ▸ (can_position_isErr_iff qs.length y xy.1 xy.2 (by omega)).1 hne)

theorem getD_append_lt (l : List ℕ) (y : ℕ) (i : ℕ) (h : i < l.length) :
    (l ++ [y]).getD i 0 = l.getD i 0 :=
  List.getD_append l [y] 0 i h

theorem getD_append_self (l : List ℕ) (y : ℕ) : (l ++ [y]).getD l.length 0 = y := by
  rw [List.getD_eq_getElem _ _ (by simp), List.getElem_append_right (le_refl _)]
  simp

/-- Appending a non-attacking row keeps the assignment safe. -/
theorem Safe_append (qs : List ℕ) (y : ℕ) (hs : Safe qs)
    (hok : ∀ i, i < qs.length → ¬ attacksSpec i (qs.getD i 0) qs.length y) :
    Safe (qs ++ [y]) := by
  intro i j hij hj
  rw [List.length_append, List.length_singleton] at hj
  by_cases hjlen : j = qs.length
  · subst hjlen
    rw [getD_append_lt _ _ _ (by omega), getD_append_self]
    exact hok i (by omega)
  · have hjlt : j < qs.length := by omega
    rw [getD_append_lt _ _ _ (by omega), getD_append_lt _ _ _ hjlt]
    exact hs i j hij hjlt

/-- A prefix of a safe assignment is safe. -/
theorem Safe_dropLast (qs : List ℕ) (hs : Safe qs) : Safe qs.dropLast := by
  intro i j hij hj
  rw [List.length_dropLast] at hj
  have hgd : ∀ t, t < qs.length - 1 → qs.dropLast.getD t 0 = qs.getD t 0 := by
    intro t ht
    rw [List.dropLast_eq_take, List.getD_eq_getElem _ _ (by simpa using ht),
      List.getElem_take, List.getD_eq_getElem _ _ (by omega)]
  rw [hgd i (by omega), hgd j hj]
  exact hs i j hij (by omega)

/-- A safe assignment has score 0. -/
theorem safe_score (l : List ℕ) (h : Safe l) : score l = 0 := by
  unfold score
  refine Finset.sum_eq_zero fun i hi => Finset.sum_eq_zero fun j hj => ?_
  rw [Finset.mem_range] at hi
  rw [Finset.mem_Ico] at hj
  rw [if_neg]
  intro hc
  exact h i j (by omega) (by omega)
    ((can_hit_iff_attacksSpec i j _ _ (by omega)).1 hc)

/-- A complete solution is a permutation of `0..n-1`. -/
theorem Sol_perm (n : ℕ) (c : List ℕ) (h : Sol n c) : c.Perm (List.range n) := by
  obtain ⟨hlen, hbound, hsafe⟩ := h
  have hnodup : c.Nodup := by
    rw [List.nodup_iff_injective_get]
    intro a b hab
    by_contra hne
    rcases Nat.lt_or_ge a.1 b.1 with hlt | hge
    · refine hsafe a.1 b.1 hlt b.2 (Or.inl ?_)
      rw [List.getD_eq_getElem _ _ a.2, List.getD_eq_getElem _ _ b.2]
      simpa using hab
    · have hlt : b.1 < a.1 := by
        rcases Nat.lt_or_ge b.1 a.1 with h | h
        · exact h
        · exact absurd (Fin.ext (by omega)) hne
      refine hsafe b.1 a.1 hlt a.2 (Or.inl ?_)
      rw [List.getD_eq_getElem _ _ a.2, List.getD_eq_getElem _ _ b.2]
      simpa using hab.symm
  have hsub : c ⊆ List.range n := fun x hx => List.mem_range.2 (hbound x hx)
  exact (hnodup.subperm hsub).perm_of_length_le (by rw [hlen, List.length_range])

/-- `LexGE c b`: the assignment `c` is lexicographically at least the bound
`b`, position by position (at use sites `b` is never longer than `c`). -/
def LexGE : List ℕ → List ℕ → Prop
  | _, [] => True
  | [], _ :: _ => False
  | x :: c, y :: b => y < x ∨ (x = y ∧ LexGE c b)

theorem LexGE_nil_right (c : List ℕ) : LexGE c [] := by
  cases c <;> exact trivial

theorem LexGE_zero (c : List ℕ) (h : c ≠ []) : LexGE c [0] := by
  cases c with
  | nil => exact absurd rfl h
  | cons a t =>
    rw [LexGE]
    rcases Nat.eq_zero_or_pos a with h0 | h0
    · exact Or.inr ⟨h0, LexGE_nil_right t⟩
    · exact Or.inl h0

/-- Bumping the bound's last digit from `x` up to `y` is sound when no
solution sits in between: if `c ≥ p ++ [x]` and `c` does not continue `p`
with any row in `[x, y)`, then `c ≥ p ++ [y]`. -/
theorem LexGE_step_up : ∀ (p c : List ℕ) (x y : ℕ), x ≤ y →
    LexGE c (p ++ [x]) →
    (∀ r, x ≤ r → r < y → ¬(c.take p.length = p ∧ c.getD p.length 0 = r)) →
    LexGE c (p ++ [y])
  | [], [], x, y, hxy, H, hmid => by rw [List.nil_append] at H; exact absurd H (by rw [LexGE]; exact fun h => h)
  | [], c0 :: c', x, y, hxy, H, hmid => by
    rw [List.nil_append] at H ⊢
    rw [LexGE] at H ⊢
    have hc0 : ¬ (x ≤ c0 ∧ c0 < y) := by
      intro ⟨h1, h2⟩
      exact hmid c0 h1 h2 ⟨rfl, rfl⟩
    rcases H with H | H
    · rcases Nat.lt_or_ge c0 y with hy | hy
      · exact absurd ⟨by omega, hy⟩ hc0
      · rcases Nat.eq_or_lt_of_le hy with he | hlt
        · exact Or.inr ⟨he.symm, LexGE_nil_right c'⟩
        · exact Or.inl hlt
    · obtain ⟨he, _⟩ := H
      rcases Nat.eq_or_lt_of_le hxy with hxy' | hxy'
      · exact Or.inr ⟨by omega, LexGE_nil_right c'⟩
      · exact absurd ⟨by omega, by omega⟩ hc0
  | a :: p', [], x, y, hxy, H, hmid => by
    rw [List.cons_append] at H
    exact absurd H (by rw [LexGE]; exact fun h => h)
  | a :: p', c0 :: c', x, y, hxy, H, hmid => by
    rw [List.cons_append] at H ⊢
    rw [LexGE] at H ⊢
    rcases H with H | H
    · exact Or.inl H
    · obtain ⟨he, Hrec⟩ := H
      refine Or.inr ⟨he, LexGE_step_up p' c' x y hxy Hrec ?_⟩
      intro r h1 h2 ⟨ht, hd⟩
      refine hmid r h1 h2 ⟨?_, ?_⟩
      · rw [List.length_cons, List.take_succ_cons, ht, he]
      · rw [List.length_cons, List.getD_cons_succ]
        exact hd
  termination_by p _ _ _ => p.length

/-- Popping: if `c ≥ p ++ [x, s]` and `c` does not continue `p` with exactly
`x`, then `c ≥ p ++ [x + 1]`. -/
theorem LexGE_pop : ∀ (p c : List ℕ) (x s : ℕ),
    LexGE c (p ++ [x] ++ [s]) →
    c.take (p.length + 1) ≠ p ++ [x] →
    LexGE c (p ++ [x + 1])
  | [], [], x, s, H, hne => by
    simp only [List.nil_append, List.singleton_append] at H
    exact absurd H (by rw [LexGE]; exact fun h => h)
  | [], c0 :: c', x, s, H, hne => by
    simp only [List.nil_append, List.singleton_append] at H
    rw [List.nil_append]
    rw [LexGE] at H ⊢
    rcases H with H | H
    · rcases Nat.eq_or_lt_of_le (Nat.succ_le_of_lt H) with he | hlt
      · exact Or.inr ⟨he.symm, LexGE_nil_right c'⟩
      · exact Or.inl hlt
    · exfalso
      apply hne
      rw [List.length_nil, List.take_succ_cons, List.take_zero, H.1]
      rfl
  | a :: p', [], x, s, H, hne => by
    simp only [List.cons_append] at H
    exact absurd H (by rw [LexGE]; exact fun h => h)
  | a :: p', c0 :: c', x, s, H, hne => by
    simp only [List.cons_append] at H ⊢
    rw [LexGE] at H ⊢
    rcases H with H | H
    · exact Or.inl H
    · obtain ⟨he, Hrec⟩ := H
      refine Or.inr ⟨he, LexGE_pop p' c' x s Hrec ?_⟩
      intro ht
      apply hne
      rw [List.length_cons, List.take_succ_cons, ht, he]
      rfl
  termination_by p _ _ _ => p.length

/-- If `c ≥ p ++ [s]` and `c` extends `p`, then its next entry is at least
`s`. -/
theorem LexGE_extends : ∀ (p c : List ℕ) (s : ℕ),
    LexGE c (p ++ [s]) → c.take p.length = p → s ≤ c.getD p.length 0
  | [], [], s, H, _ => absurd H (by rw [List.nil_append, LexGE]; exact fun h => h)
  | [], c0 :: c', s, H, _ => by
    rw [List.nil_append, LexGE] at H
    rw [List.length_nil, List.getD_cons_zero]
    rcases H with H | H
    · omega
    · omega
  | a :: p', [], s, H, ht => by
    rw [List.take_nil] at ht
    exact absurd ht.symm (by simp)
  | a :: p', c0 :: c', s, H, ht => by
    rw [List.length_cons, List.take_succ_cons, List.cons.injEq] at ht
    rw [List.cons_append, LexGE] at H
    rcases H with H | H
    · omega
    · rw [List.length_cons, List.getD_cons_succ]
      exact LexGE_extends p' c' s H.2 ht.2
  termination_by p _ _ => p.length

/-- If the row scan returns `some pos`, then `pos` is the first safe row at
or above `start`. -/
theorem posNext_some (n : ℕ) (qs : List ℕ) : ∀ (b start pos : ℕ),
    position_next_queen_from_row n qs b start = some pos →
    start ≤ pos ∧ pos < n ∧ queen_can_be_positioned_at qs (qs.length, pos) = true ∧
      ∀ r, start ≤ r → r < pos → queen_can_be_positioned_at qs (qs.length, r) = false
  | 0, start, pos, h => by rw [position_next_queen_from_row] at h; cases h
  | b + 1, start, pos, h => by
    rw [position_next_queen_from_row] at h
    by_cases hlt : start < n
    · rw [if_pos hlt] at h
      by_cases hok : queen_can_be_positioned_at qs (qs.length, start) = true
      · rw [if_pos hok] at h
        obtain rfl : start = pos := Option.some_inj.1 h
        exact ⟨le_refl _, hlt, hok, fun r h1 h2 => absurd (by omega) (Nat.not_lt.2 h1)⟩
      · rw [if_neg hok] at h
        obtain ⟨h1, h2, h3, h4⟩ := posNext_some n qs b (start + 1) pos h
        refine ⟨by omega, h2, h3, fun r hr1 hr2 => ?_⟩
        by_cases hrs : r = start
        · subst hrs
          exact Bool.eq_false_iff.2 hok
        · exact h4 r (by omega) hr2
    · rw [if_neg hlt] at h
      cases h

/-- If the row scan fails with budget covering the whole board, then no row
in `[start, n)` is safe. -/
theorem posNext_none (n : ℕ) (qs : List ℕ) : ∀ (b start : ℕ), n ≤ b + start →
    position_next_queen_from_row n qs b start = none →
    ∀ r, start ≤ r → r < n → queen_can_be_positioned_at qs (qs.length, r) = false
  | 0, start, hb, _, r, hr1, hr2 => absurd (by omega : start < n) (by omega)
  | b + 1, start, hb, h, r, hr1, hr2 => by
    rw [position_next_queen_from_row] at h
    rw [if_pos (by omega : start < n)] at h
    by_cases hok : queen_can_be_positioned_at qs (qs.length, start) = true
    · rw [if_pos hok] at h; cases h
    · rw [if_neg hok] at h
      by_cases hrs : r = start
      · subst hrs
        exact Bool.eq_false_iff.2 hok
      · exact posNext_none n qs b (start + 1) (by omega) h r (by omega) hr2

/-- In a safe assignment, any entry is positionable against the prefix of
entries before it. -/
theorem Safe_prefix_ok (c qs : List ℕ) (hs : Safe c) (ht : c.take qs.length = qs)
    (hlt : qs.length < c.length) :
    queen_can_be_positioned_at qs (qs.length, c.getD qs.length 0) = true := by
  rw [okPos_iff]
  intro i hi hatt
  have hqsi : qs.getD i 0 = c.getD i 0 := by
    rw [← ht, List.getD_eq_getElem _ _ (by rw [ht]; exact hi), List.getElem_take,
      List.getD_eq_getElem _ _ (by omega)]
  rw [hqsi] at hatt
  exact hs i qs.length hi hlt hatt

/-- A lexicographic lower bound strictly shorter than `c` may be extended by
a trailing `0`. -/
theorem LexGE_snoc_zero : ∀ (b c : List ℕ), LexGE c b → b.length < c.length →
    LexGE c (b ++ [0])
  | [], c, _, hlen => LexGE_zero c (by intro h; rw [h] at hlen; simp at hlen)
  | y :: b', c0 :: c', H, hlen => by
    rw [List.cons_append]
    rw [LexGE] at H ⊢
    rcases H with H | H
    · exact Or.inl H
    · refine Or.inr ⟨H.1, LexGE_snoc_zero b' c' H.2 ?_⟩
      rw [List.length_cons, List.length_cons] at hlen
      omega
  | y :: b', [], H, hlen => absurd H (by rw [LexGE]; exact fun h => h)
  termination_by b _ => b.length

/-- Positional progress measure for the backtracking state: the partial
assignment followed by the search cursor, read as digits `x + 1` in base
`base`, most significant first, with exponents counted down from `e`. -/
def nuA (base : ℕ) : List ℕ → ℕ → ℕ
  | [], _ => 0
  | x :: t, e => (x + 1) * base ^ e + nuA base t (e - 1)

theorem nuA_lt (base : ℕ) (hb : 0 < base) :
    ∀ (l : List ℕ) (e : ℕ), (∀ x ∈ l, x + 1 < base) → l.length ≤ e + 1 →
      nuA base l e < base ^ (e + 1)
  | [], e, _, _ => by rw [nuA]; exact pow_pos hb (e + 1)
  | x :: t, e, hd, hl => by
    rw [nuA]
    have hx : x + 1 < base := hd x (List.mem_cons_self x t)
    cases e with
    | zero =>
      have ht : t = [] := by
        rw [List.length_cons] at hl
        exact List.length_eq_zero.1 (by omega)
      subst ht
      rw [nuA]
      simpa using hx
    | succ e' =>
      have hrec : nuA base t e' < base ^ (e' + 1) := by
        refine nuA_lt base hb t e' (fun y hy => hd y (List.mem_cons_of_mem x hy)) ?_
        rw [List.length_cons] at hl
        omega
      have h1 : (x + 1) * base ^ (e' + 1) + nuA base t (e' + 1 - 1)
          < (x + 2) * base ^ (e' + 1) := by
        rw [Nat.succ_sub_one]
        calc (x + 1) * base ^ (e' + 1) + nuA base t e'
            < (x + 1) * base ^ (e' + 1) + base ^ (e' + 1) := by omega
          _ = (x + 2) * base ^ (e' + 1) := by ring
      calc (x + 1) * base ^ (e' + 1) + nuA base t (e' + 1 - 1)
          < (x + 2) * base ^ (e' + 1) := h1
        _ ≤ base * base ^ (e' + 1) := Nat.mul_le_mul_right _ (by omega)
        _ = base ^ (e' + 1 + 1) := by ring

theorem nuA_append (base : ℕ) :
    ∀ (l : List ℕ) (y e : ℕ), l.length ≤ e →
      nuA base (l ++ [y]) e = nuA base l e + (y + 1) * base ^ (e - l.length)
  | [], y, e, _ => by
    rw [List.nil_append, nuA, nuA, nuA, List.length_nil, Nat.sub_zero]
    omega
  | x :: t, y, e, hl => by
    rw [List.cons_append, nuA, nuA,
      nuA_append base t y (e - 1) (by rw [List.length_cons] at hl; omega)]
    have he : e - 1 - t.length = e - (x :: t).length := by
      rw [List.length_cons]; omega
    rw [he]
    ring

/-- Pushing a queen strictly increases the progress measure. -/
theorem nuA_push (n : ℕ) (qs : List ℕ) (start pos : ℕ) (h1 : qs.length < n)
    (h2 : start ≤ pos) :
    nuA (n + 2) (qs ++ [start]) n < nuA (n + 2) (qs ++ [pos] ++ [0]) n := by
  rw [nuA_append (n + 2) qs start n (by omega),
    nuA_append (n + 2) (qs ++ [pos]) 0 n (by rw [List.length_append]; simpa using h1),
    nuA_append (n + 2) qs pos n (by omega)]
  have hlen : (qs ++ [pos]).length = qs.length + 1 := by simp
  rw [hlen]
  have hpow : 0 < (n + 2) ^ (n - (qs.length + 1)) := pow_pos (by omega) _
  have hmul : (start + 1) * (n + 2) ^ (n - qs.length)
      ≤ (pos + 1) * (n + 2) ^ (n - qs.length) :=
    Nat.mul_le_mul_right _ (by omega)
  omega

/-- Popping a queen strictly increases the progress measure. -/
theorem nuA_pop (n : ℕ) (qs' : List ℕ) (row start : ℕ)
    (h1 : qs'.length + 1 ≤ n) (h3 : start ≤ n) :
    nuA (n + 2) (qs' ++ [row] ++ [start]) n < nuA (n + 2) (qs' ++ [row + 1]) n := by
  rw [nuA_append (n + 2) (qs' ++ [row]) start n (by rw [List.length_append]; simpa using h1),
    nuA_append (n + 2) qs' row n (by omega),
    nuA_append (n + 2) qs' (row + 1) n (by omega)]
  have hlen : (qs' ++ [row]).length = qs'.length + 1 := by simp
  rw [hlen]
  have hsplit : (n + 2) ^ (n - qs'.length)
      = (n + 2) * (n + 2) ^ (n - (qs'.length + 1)) := by
    rw [← pow_succ']
    congr 1
    omega
  have hstep : (start + 1) * (n + 2) ^ (n - (qs'.length + 1))
      < (n + 2) ^ (n - qs'.length) := by
    rw [hsplit]
    exact (Nat.mul_lt_mul_right (pow_pos (by omega) _)).2 (by omega)
  calc nuA (n + 2) qs' n + (row + 1) * (n + 2) ^ (n - qs'.length)
        + (start + 1) * (n + 2) ^ (n - (qs'.length + 1))
      < nuA (n + 2) qs' n + (row + 1) * (n + 2) ^ (n - qs'.length)
        + (n + 2) ^ (n - qs'.length) := by omega
    _ = nuA (n + 2) qs' n + (row + 1 + 1) * (n + 2) ^ (n - qs'.length) := by ring

/-- The backtracking loop: from a safe, bounded state whose lexicographic
lower bound has not yet passed some existing solution, and with fuel covering
the remaining progress measure, the loop completes the board into a
zero-score permutation. -/
theorem cpLoop_spec : ∀ (fuel n : ℕ) (qs : List ℕ) (start : ℕ) (tr : Trace),
    Safe qs → (∀ x ∈ qs, x < n) → qs.length ≤ n → start ≤ n →
    (qs.length < n → ∀ c, Sol n c → LexGE c (qs ++ [start])) →
    (∃ c, Sol n c) →
    (n + 2) ^ (n + 1) ≤ fuel + nuA (n + 2) (qs ++ [start]) n →
    ∃ rows tr', cpLoop n fuel qs start tr = some (rows, 0, tr')
      ∧ rows.Perm (List.range n)
  | 0, n, qs, start, tr, hS, hB, hL, hst, hinv, hex, hfuel => by
    exfalso
    have hbound : nuA (n + 2) (qs ++ [start]) n < (n + 2) ^ (n + 1) := by
      refine nuA_lt (n + 2) (by omega) (qs ++ [start]) n (fun x hx => ?_) ?_
      · rcases List.mem_append.1 hx with hx | hx
        · have := hB x hx; omega
        · rw [List.mem_singleton] at hx; omega
      · rw [List.length_append, List.length_singleton]; omega
    omega
  | fuel + 1, n, qs, start, tr, hS, hB, hL, hst, hinv, hex, hfuel => by
    rw [cpLoop]
    by_cases hLn : qs.length = n
    · rw [if_neg (fun h => h hLn)]
      exact ⟨qs, tr, by rw [safe_score qs hS], Sol_perm n qs ⟨hLn, hB, hS⟩⟩
    · rw [if_pos hLn]
      have hLlt : qs.length < n := Nat.lt_of_le_of_ne hL hLn
      cases hpos : position_next_queen_from_row n qs n start with
      | some pos =>
        obtain ⟨hp1, hp2, hp3, hp4⟩ := posNext_some n qs n start pos hpos
        have hSafe2 : Safe (qs ++ [pos]) := Safe_append qs pos hS ((okPos_iff qs pos).1 hp3)
        have hrec := cpLoop_spec fuel n (qs ++ [pos]) 0 (tr ++ [(qs ++ [pos], 0)])
          hSafe2
          (fun x hx => by
            rcases List.mem_append.1 hx with hx | hx
            · exact hB x hx
            · rw [List.mem_singleton] at hx; omega)
          (by rw [List.length_append, List.length_singleton]; omega)
          (Nat.zero_le n)
          (fun hlen2 c hc => by
            have hge := hinv hLlt c hc
            have hstep : LexGE c (qs ++ [pos]) := by
              refine LexGE_step_up qs c start pos hp1 hge ?_
              intro r hr1 hr2 hcon
              have hok := Safe_prefix_ok c qs hc.2.2 hcon.1 (by rw [hc.1]; exact hLlt)
              rw [hcon.2] at hok
              rw [hp4 r hr1 hr2] at hok
              cases hok
            exact LexGE_snoc_zero (qs ++ [pos]) c hstep (by rw [hc.1]; exact hlen2))
          hex
          (by
            have hinc := nuA_push n qs start pos hLlt hp1
            omega)
        obtain ⟨rows, tr', heq, hperm⟩ := hrec
        exact ⟨rows, tr', heq, hperm⟩
      | none =>
        have hnone := posNext_none n qs n start (by omega) hpos
        cases hlast : qs.getLast? with
        | some row =>
          obtain ⟨qs', hqs'⟩ := List.getLast?_eq_some_iff.1 hlast
          have hqlen : qs.length = qs'.length + 1 := by
            rw [hqs', List.length_append, List.length_singleton]
          have hrown : row < n :=
            hB row (by rw [hqs']; exact List.mem_append.2 (Or.inr (List.mem_singleton.2 rfl)))
          have hdrop : qs.dropLast = qs' := by rw [hqs']; exact List.dropLast_concat
          have hrec := cpLoop_spec fuel n qs.dropLast (row + 1) (tr ++ [(qs.dropLast, 0)])
            (Safe_dropLast qs hS)
            (fun x hx => hB x (List.mem_of_mem_dropLast hx))
            (by rw [List.length_dropLast]; omega)
            (by omega)
            (fun hlen2 c hc => by
              have hge := hinv hLlt c hc
              rw [hdrop]
              refine LexGE_pop qs' c row start (by rw [hqs'] at hge; exact hge) ?_
              intro hteq
              have htq : c.take qs.length = qs := by
                rw [hqs', List.length_append, List.length_singleton]
                exact hteq
              have hclen : qs.length < c.length := by rw [hc.1]; exact hLlt
              have hok := Safe_prefix_ok c qs hc.2.2 htq hclen
              have hdmem : c.getD qs.length 0 ∈ c := by
                rw [List.getD_eq_getElem _ _ hclen]
                exact List.getElem_mem _
              have hdge : start ≤ c.getD qs.length 0 := LexGE_extends qs c start hge htq
              rw [hnone _ hdge (hc.2.1 _ hdmem)] at hok
              cases hok)
            hex
            (by
              have hinc := nuA_pop n qs' row start (by omega) hst
              rw [hdrop]
              rw [hqs'] at hfuel
              omega)
          obtain ⟨rows, tr', heq, hperm⟩ := hrec
          exact ⟨rows, tr', heq, hperm⟩
        | none =>
          exfalso
          have hqnil : qs = [] := List.getLast?_eq_none_iff.1 hlast
          subst hqnil
          obtain ⟨c, hc⟩ := hex
          have hn0 : 0 < n := by simpa using hLlt
          have hclen : 0 < c.length := by rw [hc.1]; exact hn0
          have hdmem : c.getD 0 0 ∈ c := by
            rw [List.getD_eq_getElem _ _ hclen]
            exact List.getElem_mem _
          have hge := hinv hLlt c hc
          have hdge : start ≤ c.getD 0 0 := by
            have := LexGE_extends [] c start hge rfl
            simpa using this
          have hfalse := hnone (c.getD 0 0) hdge (hc.2.1 _ hdmem)
          have htrue : queen_can_be_positioned_at []
              (List.length ([] : List ℕ), c.getD 0 0) = true := rfl
          exact absurd (htrue.symm.trans hfalse) (by decide)

/-- Row of the queen in column `i` in the classical explicit `n`-queens
solution: the staircase construction, with the standard corrections for
`n % 6 = 2` and `n % 6 = 3`. -/
def qrow (n i : ℕ) : ℕ :=
  if n % 6 = 2 then
    if i < n / 2 then 2 * i + 1
    else if i = n / 2 then 2
    else if i = n / 2 + 1 then 0
    else if i = n - 1 then 4
    else 2 * (i - n / 2 + 1)
  else if n % 6 = 3 then
    if i + 1 < (n - 1) / 2 then 2 * i + 3
    else if i + 1 = (n - 1) / 2 then 1
    else if i = n - 2 then 0
    else if i = n - 1 then 2
    else 2 * (i - (n - 1) / 2) + 4
  else
    if i < n / 2 then 2 * i + 1
    else 2 * (i - n / 2)

def qsol (n : ℕ) : List ℕ := (List.range n).map (qrow n)

theorem qrow_lt (n : ℕ) (hn : n = 1 ∨ 4 ≤ n) (i : ℕ) (hi : i < n) : qrow n i < n := by
  unfold qrow
  split_ifs <;> omega

theorem qrow_safe (n : ℕ) (hn : n = 1 ∨ 4 ≤ n) (i j : ℕ) (hij : i < j) (hj : j < n) :
    ¬ attacksSpec i (qrow n i) j (qrow n j) := by
  unfold attacksSpec qrow
  split_ifs <;> (try simp only [false_or, or_false]) <;> omega

theorem qsol_length (n : ℕ) : (qsol n).length = n := by
  rw [qsol, List.length_map, List.length_range]

theorem qsol_getD (n i : ℕ) (h : i < n) : (qsol n).getD i 0 = qrow n i := by
  rw [qsol, List.getD_eq_getElem _ _ (by rw [List.length_map, List.length_range]; exact h),
    List.getElem_map, List.getElem_range]

theorem qsol_Sol (n : ℕ) (hn : n = 1 ∨ 4 ≤ n) : Sol n (qsol n) := by
  refine ⟨qsol_length n, ?_, ?_⟩
  · intro x hx
    rw [qsol, List.mem_map] at hx
    obtain ⟨i, hi, rfl⟩ := hx
    rw [List.mem_range] at hi
    exact qrow_lt n hn i hi
  · intro i j hij hj
    rw [qsol_length] at hj
    rw [qsol_getD n i (by omega), qsol_getD n j hj]
    exact qrow_safe n hn i j hij hj

/-- C2: `ConstraintPropagation::solve_with_callback` (backtracking), run with
fuel covering its worst case: for every `N` with `N >= 4` or `N == 1` it
returns a solution with score 0 whose assignment is a length-`N` permutation
of `0..N-1`; for `N` in `{2, 3}` it returns the explicit non-solution state:
an empty assignment (score 0, not a permutation of `0..N-1`). -/
theorem cp_backtracking_solves (n : ℕ) :
    (n = 1 ∨ 4 ≤ n →
      ∃ rows tr, cpSolve n ((n + 2) ^ (n + 1)) = some (rows, 0, tr)
        ∧ IsPermOf rows n)
    ∧ (n = 2 ∨ n = 3 →
      ∃ tr, cpSolve n ((n + 2) ^ (n + 1)) = some ([], 0, tr)
        ∧ ¬ IsPermOf ([] : List ℕ) n) := by
  constructor
  · intro hn
    have hmain := cpLoop_spec ((n + 2) ^ (n + 1)) n [] 0 []
      (fun i j _ hj => absurd hj (by simp))
      (fun x hx => absurd hx (List.not_mem_nil x))
      (by simp)
      (Nat.zero_le n)
      (fun hlen c hc => LexGE_zero c (fun hcnil => by
        rw [hcnil] at hc
        have h1 := hc.1
        rw [List.length_nil] at h1
        simp only [List.length_nil] at hlen
        omega))
      ⟨qsol n, qsol_Sol n hn⟩
      (Nat.le_add_right _ _)
    obtain ⟨rows, tr', heq, hperm⟩ := hmain
    exact ⟨rows, tr', heq, hperm⟩
  · rintro (rfl | rfl)
    · exact ⟨[([0], 0), ([], 0), ([1], 0), ([], 0)], by decide, by decide⟩
    · exact ⟨[([0], 0), ([0, 2], 0), ([0], 0), ([], 0), ([1], 0), ([], 0),
        ([2], 0), ([2, 0], 0), ([2], 0), ([], 0)], by decide, by decide⟩

/-- Witness for C2 at `n = 4`: the solver returns a zero-score permutation. -/
theorem cp_backtracking_solves_witness :
    ∃ rows tr, cpSolve 4 ((4 + 2) ^ (4 + 1)) = some (rows, 0, tr)
      ∧ IsPermOf rows 4 :=
  (cp_backtracking_solves 4).1 (Or.inr (by norm_num))
